import Mathlib

/-!
Verification development for the keyring repository (github.com/creachadair/keyring).

The development shallowly embeds the Go sources:
* internal/packet/packet.go — the binary packet codec (parsing, building,
  binary search over key entries);
* internal/cipher/cipher.go — the AEAD wrapper layer (the chacha20poly1305
  primitive itself is an external library and is modelled symbolically);
* view.go and utils.go — the View snapshot and the Ring helpers;
* the Ring state machine (New/Read/WriteTo/Add/AddRandom/Activate/Rekey),
  whose Go file is not among the provided sources and is therefore modelled
  from the specification, with field names taken from the package tests.

Bytes are modelled as natural numbers; every value produced by the Go code is
a `byte`, i.e. `< 256`, and hypotheses state that bound where a theorem needs
it.  Go's bit operations (`<<`, `>>`, `|`, `&`) are modelled by the
corresponding `Nat` operations.  Loops are modelled by fuel-indexed structural
recursion; the fuel arguments are always large enough for the loop to run to
completion, which the lemmas below establish.
-/

namespace KeyringProof

/-! ## Packet codec data model (internal/packet/packet.go) -/

/-- Parsed representation of a stored key (packet.go `KeyInfo`): an id and the
raw key bytes. -/
structure KeyInfo where
  ID : Nat
  Key : List Nat
deriving DecidableEq, Repr

instance : Inhabited KeyInfo := ⟨⟨0, []⟩⟩

/-- Parsed representation of a stored packet (packet.go `Packet`): a type byte
and the payload bytes. -/
structure Packet where
  Ty : Nat
  Data : List Nat
deriving DecidableEq, Repr

/-- Parsed representation of a stored keyring (packet.go `Keyring`). -/
structure Keyring where
  Version : Nat
  Reserved : Nat × Nat
  Packets : List Packet
deriving DecidableEq, Repr

/-- Initial byte of the binary encoding of a keyring (packet.go `MagicByte`). -/
def MagicByte : Nat := 0xec

/-- Packet type codes (packet.go constants). -/
def DataKeyType : Nat := 2

/-- Access key generation salt packet type. -/
def AccessKeySaltType : Nat := 3

/-- Stored keyring key packet type. -/
def KeyringEntryType : Nat := 4

/-- Active key ID packet type. -/
def ActiveKeyType : Nat := 5

/-- Encrypted bundle packet type. -/
def BundleType : Nat := 6

/-- Largest value of the 3-byte packet length field (packet.go `maxUint24`). -/
def maxUint24 : Nat := 1 <<< 24 - 1

/-- Big-endian 24-bit decode (packet.go `uint24`), reading the first three
elements of the list as Go reads `data[0] data[1] data[2]`. -/
def uint24 (data : List Nat) : Nat :=
  (data.getD 0 0) <<< 16 ||| (data.getD 1 0) <<< 8 ||| (data.getD 2 0)

/-- Big-endian 32-bit decode (encoding/binary `BigEndian.Uint32` as used by
packet.go on 4-byte prefixes). -/
def beUint32 (b0 b1 b2 b3 : Nat) : Nat :=
  b0 <<< 24 ||| b1 <<< 16 ||| b2 <<< 8 ||| b3

/-- Big-endian 32-bit encode (encoding/binary `BigEndian.PutUint32`); Go's
`byte(x)` conversion is reduction mod 256. -/
def bePutUint32 (n : Nat) : List Nat :=
  [n >>> 24 % 256, n >>> 16 % 256, n >>> 8 % 256, n % 256]

/-! ## Packet parsing (packet.go `ParsePackets`, `ParseKeyring`) -/

/-- Error raised by `ParsePackets`, carrying the positional detail of the Go
error messages: either a truncated packet header or a truncated packet body
(with the remaining and declared lengths). -/
inductive PacketErr where
  | truncHeader (offset : Nat)
  | truncPacket (offset rem plen : Nat)
deriving DecidableEq, Repr

/-- Loop body of `ParsePackets`.  `base` and `total` reproduce the Go offset
arithmetic `base + len(data) - len(cur)`; the fuel argument only bounds the
number of iterations and is irrelevant whenever it exceeds the number of
packets (established by `parseLoop_fuel`). -/
def parseLoop (base total : Nat) : Nat → List Nat → List Packet × Option PacketErr
  | _, [] => ([], none)
  | fuel + 1, t :: b1 :: b2 :: b3 :: rest =>
    let plen := uint24 [b1, b2, b3]
    if rest.length < plen then
      ([], some (.truncPacket (base + total - rest.length) rest.length plen))
    else
      let r := parseLoop base total fuel (rest.drop plen)
      (⟨t, rest.take plen⟩ :: r.1, r.2)
  | _ + 1, cur => ([], some (.truncHeader (base + total - cur.length)))
  | 0, _ => ([], none)

/-- Parse the contents of `data` into raw packets (packet.go `ParsePackets`).
The base offset is added to position information in errors; in case of error,
all complete packets so far are reported. -/
def ParsePackets (data : List Nat) (base : Nat) : List Packet × Option PacketErr :=
  parseLoop base data.length (data.length + 1) data

/-- Error raised by `ParseKeyring`: a truncated 4-byte header, a wrong magic
byte, or a packet-stream error. -/
inductive KeyringErr where
  | headerTruncated
  | invalidHeader
  | packet (e : PacketErr)
deriving DecidableEq, Repr

/-- Parse the binary contents of a keyring (packet.go `ParseKeyring`): a 4-byte
header (magic, version, two reserved bytes) followed by a packet sequence at
base offset 4.  In case of error the partial result is returned alongside. -/
def ParseKeyring (data : List Nat) : Keyring × Option KeyringErr :=
  if data.length < 4 then (⟨0, (0, 0), []⟩, some .headerTruncated)
  else if data.getD 0 0 ≠ MagicByte then (⟨0, (0, 0), []⟩, some .invalidHeader)
  else
    let r := ParsePackets (data.drop 4) 4
    (⟨data.getD 1 0, (data.getD 2 0, data.getD 3 0), r.1⟩, r.2.map .packet)

/-! ## Entry and active-id parsing (packet.go `ParseKeyInfo`, `ParseActiveKey`) -/

/-- Error raised by `ParseKeyInfo`: fewer than 4 bytes, or a zero key id. -/
inductive KeyInfoErr where
  | truncated (n : Nat)
  | invalidID
deriving DecidableEq, Repr

/-- Parse the binary encoding of a `KeyInfo` (packet.go `ParseKeyInfo`): a
4-byte big-endian id (which must be non-zero) followed by the raw key bytes. -/
def ParseKeyInfo (data : List Nat) : Except KeyInfoErr KeyInfo :=
  if data.length < 4 then .error (.truncated data.length)
  else
    let id := beUint32 (data.getD 0 0) (data.getD 1 0) (data.getD 2 0) (data.getD 3 0)
    if id = 0 then .error .invalidID
    else .ok ⟨id, data.drop 4⟩

/-- Error raised by `ParseActiveKey`: a length that is neither 0 nor 4. -/
inductive ActiveKeyErr where
  | wrongLength (n : Nat)
deriving DecidableEq, Repr

/-- Parse the binary encoding of an active key ID (packet.go
`ParseActiveKey`): empty input yields 0, a 4-byte input yields its big-endian
value, anything else is an error. -/
def ParseActiveKey (data : List Nat) : Except ActiveKeyErr Nat :=
  if data.length = 0 then .ok 0
  else if data.length ≠ 4 then .error (.wrongLength data.length)
  else .ok (beUint32 (data.getD 0 0) (data.getD 1 0) (data.getD 2 0) (data.getD 3 0))

/-! ## Packet building (packet.go `Buffer`) -/

/-- Add a packet to a buffer (packet.go `Buffer.AddPacket`): the type byte, the
payload length as three big-endian bytes (a `PutUint32` whose first byte is
overwritten by the type), then the payload.  The Go method panics when the
payload exceeds `maxUint24`; the panic is modelled as `none`. -/
def addPacket (buf : List Nat) (pt : Nat) (data : List Nat) : Option (List Nat) :=
  if data.length > maxUint24 then none
  else some (buf ++ (pt :: (bePutUint32 (data.length % 2 ^ 32)).drop 1) ++ data)

/-- Add an `ActiveKeyType` packet (packet.go `Buffer.AddActiveKey`). -/
def AddActiveKey (buf : List Nat) (id : Nat) : Option (List Nat) :=
  addPacket buf ActiveKeyType (bePutUint32 (id % 2 ^ 32))

/-- Add a `KeyringEntryType` packet (packet.go `Buffer.AddKeyringEntry`):
4-byte big-endian id followed by the raw key bytes. -/
def AddKeyringEntry (buf : List Nat) (ki : KeyInfo) : Option (List Nat) :=
  addPacket buf KeyringEntryType (bePutUint32 (ki.ID % 2 ^ 32) ++ ki.Key)

/-- Write the 4-byte container header (packet.go `Buffer.WriteHeader`). -/
def WriteHeader (format : Nat) (reserved : Nat × Nat) : List Nat :=
  [MagicByte, format, reserved.1, reserved.2]

/-! ## Well-formed packet streams -/

/-- A byte string is a well-formed packet stream when it is a concatenation of
complete packets: empty, or a 4-byte header whose declared payload length is
available, followed recursively by a well-formed remainder. -/
inductive WFPackets : List Nat → Prop where
  | nil : WFPackets []
  | cons (t b1 b2 b3 : Nat) (rest : List Nat)
      (hlen : uint24 [b1, b2, b3] ≤ rest.length)
      (htail : WFPackets (rest.drop (uint24 [b1, b2, b3]))) :
      WFPackets (t :: b1 :: b2 :: b3 :: rest)

/-! ## Encoding a sequence of packets -/

/-- Bytes contributed by one `addPacket` call for packet `p`. -/
def packetBytes (p : Packet) : List Nat :=
  p.Ty :: ((bePutUint32 (p.Data.length % 2 ^ 32)).drop 1 ++ p.Data)

/-- Encode a list of packets by calling `addPacket` once for each, in order,
starting from `buf`, mirroring a sequence of `Buffer.AddPacket` calls. -/
def addPacketList (buf : List Nat) : List Packet → Option (List Nat)
  | [] => some buf
  | p :: ps => (addPacket buf p.Ty p.Data).bind (addPacketList · ps)

/-- Concatenation of the per-packet encodings. -/
def packetsBytes : List Packet → List Nat
  | [] => []
  | p :: ps => packetBytes p ++ packetsBytes ps

/-! ## Binary search over the sorted key set (packet.go `FindKey`)

Go's `slices.BinarySearchFunc` runs a lower-bound loop over indices
`i, j = 0, n`, probing `h = (i+j)/2` and comparing `keys[h].ID` with the
target.  The loop is modelled with a fuel argument that strictly exceeds the
interval width, which the wrapper supplies. -/

/-- Loop of `slices.BinarySearchFunc` specialised to `KeyInfo.compareID`. -/
def bsLoop (keys : List KeyInfo) (id : Nat) : Nat → Nat → Nat → Nat
  | 0, i, _ => i
  | fuel + 1, i, j =>
    if i < j then
      let h := (i + j) / 2
      if (keys.getD h default).ID < id then bsLoop keys id fuel (h + 1) j
      else bsLoop keys id fuel i h
    else i

/-- Report the location of `id` in `keys`, or -1 (packet.go `FindKey`).
Precondition: `keys` is sorted increasing by id. -/
def FindKey (keys : List KeyInfo) (id : Nat) : Int :=
  let n := keys.length
  let pos := bsLoop keys id (n + 1) 0 n
  if pos < n ∧ (keys.getD pos default).ID = id then (pos : Int) else -1

/-- Key sets are kept sorted strictly increasing by id. -/
def SortedByID (keys : List KeyInfo) : Prop :=
  List.Pairwise (fun a b => a.ID < b.ID) keys

instance (keys : List KeyInfo) : Decidable (SortedByID keys) :=
  inferInstanceAs (Decidable (List.Pairwise _ _))

/-! ## Cipher layer (internal/cipher/cipher.go)

The wrapper structure — nonce-prefixed sealed format, the key-length check of
`chacha20poly1305.NewX`, the short-nonce check of `DecryptWithKey` — is
embedded from cipher.go.  The AEAD primitive itself is an external library;
`aeadSeal`/`aeadOpen` below are modelled from the spec: sealing binds the
ciphertext to the key, and opening succeeds exactly under the sealing key
(authentication failure is a generic `none`, with no partial plaintext). -/

/-- Key length in bytes of an encryption key (cipher.go `KeyLen`,
chacha20poly1305.KeySize). -/
def KeyLen : Nat := 32

/-- Nonce size of the extended-nonce AEAD (chacha20poly1305.NonceSizeX). -/
def NonceSize : Nat := 24

/-- Modelled from the spec: symbolic AEAD sealing for the external
chacha20poly1305 primitive.  The sealed bytes determine the key and plaintext;
tag verification is modelled by the key prefix below. -/
def aeadSeal (key data : List Nat) : List Nat := key ++ data

/-- Modelled from the spec: symbolic AEAD opening; succeeds exactly when the
content was sealed under the same (32-byte) key, and reveals nothing
otherwise. -/
def aeadOpen (key sealed : List Nat) : Option (List Nat) :=
  if key.length = KeyLen ∧ sealed.take KeyLen = key then some (sealed.drop KeyLen) else none

/-- Encrypt data with the given key (cipher.go `EncryptWithKey`).  The random
24-byte nonce drawn inside the Go function is passed explicitly; the result is
the nonce length together with the nonce-prefixed sealed bytes. -/
def EncryptWithKey (key data nonce : List Nat) : Option (Nat × List Nat) :=
  if key.length ≠ KeyLen then none
  else some (NonceSize, nonce ++ aeadSeal key data)

/-- Decrypt data with the given key (cipher.go `DecryptWithKey`): split the
24-byte nonce prefix and open the remainder. -/
def DecryptWithKey (key data : List Nat) : Option (List Nat) :=
  if key.length ≠ KeyLen then none
  else if data.length < NonceSize then none
  else aeadOpen key (data.drop NonceSize)

/-! ## The Ring state machine

The Go file defining the Ring type and its operations is not among the
provided sources (only its tests, its helpers in utils.go/view.go, and the CLI
callers are), so the operations below are modelled from the spec, §4.3.  The
field set is taken from the package-internal test, which constructs a `Ring`
literal with fields formatVersion, accessKeySalt, dkEncrypted, dkPlaintext,
keys, activeKey (the embedded view state) and maxID. -/

/-- Length in bytes of an access key (utils.go `AccessKeyLen` = cipher.KeyLen). -/
def AccessKeyLen : Nat := KeyLen

/-- The in-memory representation of an open keyring. -/
structure Ring where
  formatVersion : Nat
  accessKeySalt : List Nat
  dkEncrypted : List Nat
  dkPlaintext : List Nat
  keys : List KeyInfo
  activeKey : Nat
  maxID : Nat
deriving DecidableEq, Repr

/-- Creation-time configuration (spec §6): initial key, access key, optional
salt. -/
structure Config where
  InitialKey : List Nat
  AccessKey : List Nat
  AccessKeySalt : List Nat
deriving DecidableEq, Repr

/-- Append a key with the next id (utils.go `Ring.addBytes`): increment
`maxID`, append an entry carrying the incremented id, and return that id. -/
def addBytes (r : Ring) (data : List Nat) : Ring × Nat :=
  ({ r with
      maxID := r.maxID + 1,
      keys := r.keys ++ [⟨r.maxID + 1, data⟩] },
    r.maxID + 1)

/-- Modelled from the spec: `New` — validate the access key length and
non-empty initial key, wrap the freshly generated DEK (passed explicitly,
with its nonce) under the access key, and start with one active key of id 1.
Validation failures are collapsed to `none`. -/
def NewRing (cfg : Config) (dek nonce : List Nat) : Option Ring :=
  if cfg.AccessKey.length ≠ AccessKeyLen then none
  else if cfg.InitialKey.length = 0 then none
  else
    match EncryptWithKey cfg.AccessKey dek nonce with
    | none => none
    | some (_, enc) =>
      some { formatVersion := 1, accessKeySalt := cfg.AccessKeySalt,
             dkEncrypted := enc, dkPlaintext := dek,
             keys := [⟨1, cfg.InitialKey⟩], activeKey := 0, maxID := 1 }

/-- Modelled from the spec: `Add` — reject empty key material (a precondition
fault, modelled as `none`), then append via `addBytes`; the caller's bytes are
cloned, which the pure model renders as value passing. -/
def RingAdd (r : Ring) (data : List Nat) : Option (Ring × Nat) :=
  if data.length = 0 then none else some (addBytes r data)

/-- Modelled from the spec: `Activate` — look the id up by binary search; a
missing id is a precondition fault (`none`), otherwise the active index is
set. -/
def RingActivate (r : Ring) (id : Nat) : Option Ring :=
  let pos := FindKey r.keys id
  if pos < 0 then none else some { r with activeKey := pos.toNat }

/-- Modelled from the spec: `Rekey` — validate the new access key length,
re-wrap the existing plaintext DEK under it with a fresh nonce, and replace
the wrapped DEK and (when supplied) the salt; keys and DEK plaintext are
untouched. -/
def RingRekey (r : Ring) (newKey : List Nat) (newSalt : Option (List Nat))
    (nonce : List Nat) : Option Ring :=
  if newKey.length ≠ AccessKeyLen then none
  else
    match EncryptWithKey newKey r.dkPlaintext nonce with
    | none => none
    | some (_, enc) =>
      some { r with dkEncrypted := enc, accessKeySalt := newSalt.getD r.accessKeySalt }

/-- A mutation applied to an open Ring: `Add` with the given bytes,
`AddRandom` with the given generated bytes (`AddRandom n` draws `n` random
bytes and then behaves as `Add`), or `Activate`. -/
inductive RingOp where
  | add (data : List Nat)
  | addRandom (data : List Nat)
  | activate (id : Nat)
deriving DecidableEq, Repr

/-- Apply one mutation. -/
def applyOp (r : Ring) : RingOp → Option Ring
  | .add data => (RingAdd r data).map (·.1)
  | .addRandom data => (RingAdd r data).map (·.1)
  | .activate id => RingActivate r id

/-- Apply a sequence of mutations, failing if any fails. -/
def runOps (r : Ring) : List RingOp → Option Ring
  | [] => some r
  | op :: ops => (applyOp r op).bind (runOps · ops)

/-! ## Serialization of a Ring (spec §4.3 `WriteTo`) -/

/-- Add one `KeyringEntryType` packet per key, in list order. -/
def addEntryList (buf : List Nat) : List KeyInfo → Option (List Nat)
  | [] => some buf
  | ki :: rest => (AddKeyringEntry buf ki).bind (addEntryList · rest)

/-- Modelled from the spec: `WriteTo` — emit the header, the salt packet, the
wrapped-DEK packet, and one bundle packet whose sealed content is an active-id
packet followed by one keyring-entry packet per key in ascending id order,
AEAD-sealed under the plaintext DEK with the given fresh nonce.  An oversized
packet (a `Buffer.AddPacket` panic) is modelled as `none`. -/
def WriteTo (r : Ring) (nonce : List Nat) : Option (List Nat) := do
  let inner0 ← AddActiveKey [] (r.keys.getD r.activeKey default).ID
  let inner ← addEntryList inner0 r.keys
  let sealedPair ← EncryptWithKey r.dkPlaintext inner nonce
  let b1 ← addPacket (WriteHeader r.formatVersion (0, 0)) AccessKeySaltType r.accessKeySalt
  let b2 ← addPacket b1 DataKeyType r.dkEncrypted
  addPacket b2 BundleType sealedPair.2

/-! ## Loading a Ring (spec §4.3 `Read`) -/

/-- First packet of the given type, if any. -/
def findPacket (pkts : List Packet) (ty : Nat) : Option Packet :=
  pkts.find? (fun p => p.Ty == ty)

/-- Decode every `KeyringEntryType` packet, failing on the first invalid
entry and ignoring packets of other types. -/
def parseEntryList : List Packet → Option (List KeyInfo)
  | [] => some []
  | p :: rest =>
    if p.Ty == KeyringEntryType then
      match ParseKeyInfo p.Data with
      | .error _ => none
      | .ok ki => (parseEntryList rest).map (ki :: ·)
    else parseEntryList rest

/-- Sort keys in place by ID (packet.go `SortKeysByID`). -/
def SortKeysByID (keys : List KeyInfo) : List KeyInfo :=
  List.insertionSort (fun a b => a.ID ≤ b.ID) keys

/-- Modelled from the spec: `Read` — parse the container, validate the header
fields, extract the salt, wrapped-DEK and bundle packets, derive the access
key from the salt, unwrap the DEK, open the bundle, decode the active-id
marker and the keyring entries, validate that ids are unique (non-zero ids
are enforced by `ParseKeyInfo`) and that a non-zero active id names an
existing entry, keep the keys sorted by id, and set `maxID` to the maximum
stored id.  Every failure is collapsed to `none`. -/
def ReadRing (data : List Nat) (akf : List Nat → List Nat) : Option Ring :=
  let pr := ParseKeyring data
  if pr.2.isSome then none
  else if pr.1.Version ≠ 1 then none
  else if pr.1.Reserved ≠ (0, 0) then none
  else do
    let saltPkt ← findPacket pr.1.Packets AccessKeySaltType
    let dekPkt ← findPacket pr.1.Packets DataKeyType
    let bundlePkt ← findPacket pr.1.Packets BundleType
    let dkPlain ← DecryptWithKey (akf saltPkt.Data) dekPkt.Data
    let inner ← DecryptWithKey dkPlain bundlePkt.Data
    let ip := ParsePackets inner 0
    if ip.2.isSome then none
    else do
      let activeID ← match findPacket ip.1 ActiveKeyType with
        | none => some 0
        | some p => (ParseActiveKey p.Data).toOption
      let entries ← parseEntryList ip.1
      let sorted := SortKeysByID entries
      if ¬ (sorted.map KeyInfo.ID).Nodup then none
      else do
        let pos ←
          if activeID = 0 then some 0
          else if FindKey sorted activeID < 0 then none
          else some (FindKey sorted activeID).toNat
        some { formatVersion := pr.1.Version, accessKeySalt := saltPkt.Data,
               dkEncrypted := dekPkt.Data, dkPlaintext := dkPlain,
               keys := sorted, activeKey := pos,
               maxID := sorted.foldl (fun m ki => max m ki.ID) 0 }

/-! ## The Ring invariant -/

/-- Invariant of an open Ring whose wrapped DEK is sealed under `accessKey`:
format version 1, well-sized keys, the wrapped DEK decrypt-matching the
plaintext DEK, ids exactly `1..n` in order (so the key set is sorted and
`maxID = n`), and a valid active index. -/
def RingInv (accessKey : List Nat) (r : Ring) : Prop :=
  r.formatVersion = 1 ∧
  accessKey.length = KeyLen ∧
  r.dkPlaintext.length = KeyLen ∧
  (∃ n0, n0.length = NonceSize ∧ r.dkEncrypted = n0 ++ aeadSeal accessKey r.dkPlaintext) ∧
  r.keys.map KeyInfo.ID = List.range' 1 r.keys.length ∧
  r.maxID = r.keys.length ∧
  r.activeKey < r.keys.length

/-! ## Inverting a successful `WriteTo` -/

/-- The packet written for one keyring entry. -/
def entryPacket (ki : KeyInfo) : Packet :=
  ⟨KeyringEntryType, bePutUint32 (ki.ID % 2 ^ 32) ++ ki.Key⟩

/-! ## Concrete witness material -/

instance : Inhabited Ring := ⟨⟨0, [], [], [], [], 0, 0⟩⟩

/-- Concrete access key for witnesses. -/
def wK : List Nat := List.replicate 32 3

/-- Concrete DEK for witnesses. -/
def wDek : List Nat := List.replicate 32 9

/-- Concrete nonces for witnesses. -/
def wN0 : List Nat := List.replicate 24 1

/-- Second witness nonce. -/
def wN1 : List Nat := List.replicate 24 2

/-- Third witness nonce. -/
def wN2 : List Nat := List.replicate 24 4

/-- Concrete creation configuration for witnesses. -/
def wCfg : Config := ⟨[42, 43], wK, [5, 5]⟩

/-- Concrete mutation sequence for witnesses. -/
def wOps : List RingOp := [.add [10], .addRandom [11, 12], .activate 2]

/-- Ring created by `NewRing` on the witness inputs. -/
def wR0 : Ring := (NewRing wCfg wDek wN0).getD default

/-- Ring after the witness mutations. -/
def wR : Ring := (runOps wR0 wOps).getD default

/-- Bytes written for the witness ring. -/
def wOut : List Nat := (WriteTo wR wN1).getD []

/-- Second concrete access key, distinct from `wK`. -/
def wK2 : List Nat := List.replicate 32 5

/-- Ring after rekeying the witness ring to `wK2`. -/
def c2R1 : Ring := (RingRekey wR0 wK2 (some [9]) wN1).getD default

/-- Bytes written after the witness rekey. -/
def c2Out : List Nat := (WriteTo c2R1 wN2).getD []

namespace Heap

/-- A store of byte buffers; pointers are list indices. -/
abbrev Store : Type := List (List Nat)

/-- A stored key: an id and a pointer to its byte buffer. -/
structure HKeyInfo where
  ID : Nat
  Key : Nat
deriving DecidableEq, Repr

instance : Inhabited HKeyInfo := ⟨⟨0, 0⟩⟩

/-- Snapshot state of a keyring: entries, active index (view.go `View`). -/
structure HView where
  keys : List HKeyInfo
  activeKey : Nat
deriving DecidableEq, Repr

/-- The mutable Ring state over the store. -/
structure HRing where
  accessKeySalt : List Nat
  dkEncrypted : List Nat
  dkPlaintext : List Nat
  keys : List HKeyInfo
  activeKey : Nat
  maxID : Nat
deriving DecidableEq, Repr

/-- The binary-search loop of packet.go `FindKey`, over pointer entries. -/
def bsLoopH (keys : List HKeyInfo) (id : Nat) : Nat → Nat → Nat → Nat
  | 0, i, _ => i
  | fuel + 1, i, j =>
    if i < j then
      let h := (i + j) / 2
      if (keys.getD h default).ID < id then bsLoopH keys id fuel (h + 1) j
      else bsLoopH keys id fuel i h
    else i

/-- packet.go `FindKey` over pointer entries. -/
def FindKeyH (keys : List HKeyInfo) (id : Nat) : Int :=
  let n := keys.length
  let pos := bsLoopH keys id (n + 1) 0 n
  if pos < n ∧ (keys.getD pos default).ID = id then (pos : Int) else -1

/-- packet.go `KeyInfo.Clone`: copy the pointed-to bytes into a fresh cell. -/
def cloneInfo (σ : Store) (ki : HKeyInfo) : Store × HKeyInfo :=
  (List.append σ [List.getD σ ki.Key []], ⟨ki.ID, List.length σ⟩)

/-- view.go `View.clone` body: clone every entry in order. -/
def cloneKeys (σ : Store) : List HKeyInfo → Store × List HKeyInfo
  | [] => (σ, [])
  | ki :: rest =>
    let s1 := cloneInfo σ ki
    let s2 := cloneKeys s1.1 rest
    (s2.1, s1.2 :: s2.2)

/-- view.go `Ring.View`: a deep clone of the key set and active index. -/
def ringView (σ : Store) (r : HRing) : Store × HView :=
  let c := cloneKeys σ r.keys
  (c.1, ⟨c.2, r.activeKey⟩)

/-- view.go `View.Len`. -/
def vLen (v : HView) : Nat := v.keys.length

/-- view.go `View.Active`. -/
def vActive (v : HView) : Nat := (v.keys.getD v.activeKey default).ID

/-- view.go `View.Has`. -/
def vHas (v : HView) (id : Nat) : Bool := decide (0 ≤ FindKeyH v.keys id)

/-- view.go `View.Append`: look the id up, then append the pointed-to bytes;
the panic on a missing id is modelled as `none`. -/
def vAppend (σ : Store) (v : HView) (id : Nat) (buf : List Nat) : Option (List Nat) :=
  let pos := FindKeyH v.keys id
  if pos < 0 then none
  else some (List.append buf (List.getD σ (v.keys.getD pos.toNat default).Key []))

/-- view.go `View.AppendActive`. -/
def vAppendActive (σ : Store) (v : HView) (buf : List Nat) : Nat × List Nat :=
  let ki := v.keys.getD v.activeKey default
  (ki.ID, List.append buf (List.getD σ ki.Key []))

/-- view.go `View.Get` (Append with an empty buffer). -/
def vGet (σ : Store) (v : HView) (id : Nat) : Option (List Nat) := vAppend σ v id []

/-- A Ring mutation over the store. -/
inductive HOp where
  | add (data : List Nat)
  | addRandom (data : List Nat)
  | activate (id : Nat)
  | rekey (newKey : List Nat) (newSalt : Option (List Nat)) (nonce : List Nat)

/-- Modelled from the spec: apply one Ring mutation.  `Add`/`AddRandom` clone
the caller's bytes into a fresh cell and append an entry pointing at it;
`Activate` moves the active index; `Rekey` rewraps the DEK, touching no key
cell.  No operation writes to an existing store cell. -/
def applyHOp (σ : Store) (r : HRing) : HOp → Option (Store × HRing)
  | .add data | .addRandom data =>
    if data.length = 0 then none
    else some (List.append σ [data],
      { r with maxID := r.maxID + 1,
               keys := r.keys ++ [⟨r.maxID + 1, List.length σ⟩] })
  | .activate id =>
    if FindKeyH r.keys id < 0 then none
    else some (σ, { r with activeKey := (FindKeyH r.keys id).toNat })
  | .rekey newKey newSalt nonce =>
    if List.length newKey ≠ AccessKeyLen then none
    else some (σ, { r with dkEncrypted := nonce ++ aeadSeal newKey r.dkPlaintext,
                           accessKeySalt := newSalt.getD r.accessKeySalt })

/-- Well-formedness: every key pointer is in range, and the active index
names an entry. -/
def WFH (σ : Store) (r : HRing) : Prop :=
  (∀ ki ∈ r.keys, ki.Key < List.length σ) ∧ r.activeKey < r.keys.length

end Heap

/-! ## Bit-arithmetic helpers

Go composes multi-byte integers with shifts and bitwise or.  When the or-ed
summands occupy disjoint bit ranges the or is ordinary addition; the lemmas
below record that and the resulting big-endian decode/encode round trips. -/

/-- Bitwise or of a left-shifted value with a value below the shift amount is
carry-free addition. -/
theorem lor_eq_add_of_lt {a b k : Nat} (hb : b < 2 ^ k) :
    a <<< k ||| b = a * 2 ^ k + b := by
  apply Nat.eq_of_testBit_eq
  intro i
  rw [Nat.testBit_lor, Nat.testBit_shiftLeft]
  rcases Nat.lt_or_ge i k with h | h
  · have hd : decide (i ≥ k) = false := by simp [Nat.not_le.mpr h]
    rw [hd, Bool.false_and, Bool.false_or]
    rw [Nat.testBit_to_div_mod, Nat.testBit_to_div_mod]
    have hsplit : a * 2 ^ k = a * 2 ^ (k - i - 1) * 2 * 2 ^ i := by
      rw [mul_assoc, mul_assoc, ← pow_succ', ← pow_add]
      congr 2
      omega
    have hdiv : (a * 2 ^ k + b) / 2 ^ i = b / 2 ^ i + a * 2 ^ (k - i - 1) * 2 := by
      rw [hsplit, Nat.add_comm, Nat.add_mul_div_right _ _ (Nat.pos_pow_of_pos i (by norm_num))]
    rw [hdiv]
    have hm : (b / 2 ^ i + a * 2 ^ (k - i - 1) * 2) % 2 = b / 2 ^ i % 2 := by omega
    rw [hm]
  · have hd : decide (i ≥ k) = true := by simp [h]
    rw [hd, Bool.true_and]
    have hbf : b.testBit i = false :=
      Nat.testBit_lt_two_pow (lt_of_lt_of_le hb (Nat.pow_le_pow_right (by norm_num) h))
    rw [hbf, Bool.or_false]
    rw [Nat.testBit_to_div_mod, Nat.testBit_to_div_mod]
    have hpow : (2 : Nat) ^ i = 2 ^ k * 2 ^ (i - k) := by
      rw [← pow_add]; congr 1; omega
    have hdiv : (a * 2 ^ k + b) / 2 ^ i = a / 2 ^ (i - k) := by
      rw [hpow, ← Nat.div_div_eq_div_mul, Nat.add_comm,
        Nat.add_mul_div_right _ _ (Nat.pos_pow_of_pos k (by norm_num)),
        Nat.div_eq_of_lt hb, Nat.zero_add]
    rw [hdiv]

/-- Decoding the three length bytes written by `addPacket` recovers the
length, for any length in 24-bit range. -/
theorem uint24_bePutUint32 {n : Nat} (hn : n ≤ maxUint24) :
    uint24 ((bePutUint32 (n % 2 ^ 32)).drop 1) = n := by
  have hn24 : n < 2 ^ 24 := by
    have : maxUint24 = 2 ^ 24 - 1 := by decide
    omega
  have hmod : n % 2 ^ 32 = n := Nat.mod_eq_of_lt (by omega)
  simp only [bePutUint32, hmod, uint24, List.drop, List.getD_cons_zero, List.getD_cons_succ]
  rw [Nat.shiftRight_eq_div_pow, Nat.shiftRight_eq_div_pow]
  rw [Nat.lor_assoc]
  rw [lor_eq_add_of_lt (b := n % 256) (k := 8) (by omega)]
  rw [lor_eq_add_of_lt (k := 16) (by omega)]
  omega

/-- Decoding the four bytes written by `bePutUint32` recovers the value, for
any value in 32-bit range. -/
theorem beUint32_bePutUint32 {n : Nat} (hn : n < 2 ^ 32) :
    beUint32 (n >>> 24 % 256) (n >>> 16 % 256) (n >>> 8 % 256) (n % 256) = n := by
  simp only [beUint32]
  rw [Nat.shiftRight_eq_div_pow, Nat.shiftRight_eq_div_pow, Nat.shiftRight_eq_div_pow]
  rw [Nat.lor_assoc, Nat.lor_assoc]
  rw [lor_eq_add_of_lt (b := n % 256) (k := 8) (by omega)]
  rw [lor_eq_add_of_lt (k := 16) (by omega)]
  rw [lor_eq_add_of_lt (k := 24) (by omega)]
  omega

/-! ## Shape lemmas for the parsing loop -/

theorem parseLoop_nil (b t fuel : Nat) : parseLoop b t fuel [] = ([], none) := by
  cases fuel <;> rfl

theorem parseLoop_short (b t fuel : Nat) (cur : List Nat) (h1 : cur ≠ [])
    (h2 : cur.length < 4) :
    parseLoop b t (fuel + 1) cur = ([], some (.truncHeader (b + t - cur.length))) := by
  match cur with
  | [] => exact absurd rfl h1
  | [_] => rfl
  | [_, _] => rfl
  | [_, _, _] => rfl
  | _ :: _ :: _ :: _ :: _ => simp at h2; omega

theorem parseLoop_cons (b t fuel t0 b1 b2 b3 : Nat) (rest : List Nat) :
    parseLoop b t (fuel + 1) (t0 :: b1 :: b2 :: b3 :: rest) =
      if rest.length < uint24 [b1, b2, b3] then
        ([], some (.truncPacket (b + t - rest.length) rest.length (uint24 [b1, b2, b3])))
      else
        (⟨t0, rest.take (uint24 [b1, b2, b3])⟩ ::
            (parseLoop b t fuel (rest.drop (uint24 [b1, b2, b3]))).1,
          (parseLoop b t fuel (rest.drop (uint24 [b1, b2, b3]))).2) := rfl

/-- The parsing loop does not depend on the fuel once the fuel exceeds the
input length; the produced packet list is moreover independent of the base
offset arguments, which only enter error offsets. -/
theorem parseLoop_fst_ext (b t b2 t2 : Nat) :
    ∀ fuel fuel2 (cur : List Nat), cur.length < fuel → cur.length < fuel2 →
      (parseLoop b t fuel cur).1 = (parseLoop b2 t2 fuel2 cur).1 ∧
      ((parseLoop b t fuel cur).2 = none ↔ (parseLoop b2 t2 fuel2 cur).2 = none) := by
  intro fuel
  induction fuel with
  | zero => intro fuel2 cur h; omega
  | succ f ih =>
    intro fuel2 cur h h2
    match cur, fuel2 with
    | [], _ => rw [parseLoop_nil, parseLoop_nil]; exact ⟨rfl, Iff.rfl⟩
    | c :: cs, f2 + 1 =>
      rcases Nat.lt_or_ge (c :: cs).length 4 with hlen | hlen
      · rw [parseLoop_short b t f _ (by simp) hlen, parseLoop_short b2 t2 f2 _ (by simp) hlen]
        simp
      · match cs with
        | b1 :: b2x :: b3 :: rest =>
          rw [parseLoop_cons, parseLoop_cons]
          by_cases hp : rest.length < uint24 [b1, b2x, b3]
          · rw [if_pos hp, if_pos hp]; simp
          · rw [if_neg hp, if_neg hp]
            have hdl : (rest.drop (uint24 [b1, b2x, b3])).length < f := by
              simp at h ⊢; omega
            have hdl2 : (rest.drop (uint24 [b1, b2x, b3])).length < f2 := by
              simp at h2 ⊢; omega
            have := ih f2 (rest.drop (uint24 [b1, b2x, b3])) hdl hdl2
            exact ⟨by rw [this.1], by simpa using this.2⟩

/-- Full fuel irrelevance: for the same base arguments, any two sufficient
fuels give identical results. -/
theorem parseLoop_fuel (b t : Nat) :
    ∀ fuel fuel2 (cur : List Nat), cur.length < fuel → cur.length < fuel2 →
      parseLoop b t fuel cur = parseLoop b t fuel2 cur := by
  intro fuel
  induction fuel with
  | zero => intro fuel2 cur h; omega
  | succ f ih =>
    intro fuel2 cur h h2
    match cur, fuel2 with
    | [], _ => rw [parseLoop_nil, parseLoop_nil]
    | c :: cs, f2 + 1 =>
      rcases Nat.lt_or_ge (c :: cs).length 4 with hlen | hlen
      · rw [parseLoop_short b t f _ (by simp) hlen, parseLoop_short b t f2 _ (by simp) hlen]
      · match cs with
        | b1 :: b2x :: b3 :: rest =>
          rw [parseLoop_cons, parseLoop_cons]
          by_cases hp : rest.length < uint24 [b1, b2x, b3]
          · rw [if_pos hp, if_pos hp]
          · rw [if_neg hp, if_neg hp]
            have hdl : (rest.drop (uint24 [b1, b2x, b3])).length < f := by
              simp at h ⊢; omega
            have hdl2 : (rest.drop (uint24 [b1, b2x, b3])).length < f2 := by
              simp at h2 ⊢; omega
            rw [ih f2 _ hdl hdl2]

theorem WFPackets_length (cur : List Nat) (h : WFPackets cur) (hne : cur ≠ []) :
    4 ≤ cur.length := by
  cases h with
  | nil => exact absurd rfl hne
  | cons t b1 b2 b3 rest hlen htail => simp

/-- The parsing loop succeeds (no error) exactly on well-formed packet
streams. -/
theorem parseLoop_none_iff (b t : Nat) :
    ∀ fuel (cur : List Nat), cur.length < fuel →
      ((parseLoop b t fuel cur).2 = none ↔ WFPackets cur) := by
  intro fuel
  induction fuel with
  | zero => intro cur h; omega
  | succ f ih =>
    intro cur h
    match cur with
    | [] => rw [parseLoop_nil]; simpa using WFPackets.nil
    | c :: cs =>
      rcases Nat.lt_or_ge (c :: cs).length 4 with hlen | hlen
      · rw [parseLoop_short b t f _ (by simp) hlen]
        simp only [Option.some_ne_none, false_iff]
        intro hwf
        have := WFPackets_length _ hwf (by simp)
        omega
      · match cs with
        | b1 :: b2x :: b3 :: rest =>
          rw [parseLoop_cons]
          by_cases hp : rest.length < uint24 [b1, b2x, b3]
          · rw [if_pos hp]
            simp only [Option.some_ne_none, false_iff]
            intro hwf
            cases hwf with
            | cons _ _ _ _ _ hl _ => omega
          · rw [if_neg hp]
            have hdl : (rest.drop (uint24 [b1, b2x, b3])).length < f := by
              simp at h ⊢; omega
            rw [ih _ hdl]
            constructor
            · intro hwf
              exact WFPackets.cons c b1 b2x b3 rest (by omega) hwf
            · intro hwf
              cases hwf with
              | cons _ _ _ _ _ _ ht => exact ht

/-- On failure, the parsing loop has consumed a well-formed prefix whose
complete packets it reports, and the remainder fails in one of the two ways
recorded in the error, whose offset is the base plus the bytes scanned. -/
theorem parseLoop_err (b t : Nat) :
    ∀ fuel (cur : List Nat) (e : PacketErr), cur.length < fuel →
      (parseLoop b t fuel cur).2 = some e →
      ∃ pre suf, cur = pre ++ suf ∧ WFPackets pre ∧
        (parseLoop b t fuel cur).1 = (ParsePackets pre 0).1 ∧
        ((suf ≠ [] ∧ suf.length < 4 ∧ e = .truncHeader (b + t - suf.length)) ∨
         (∃ t0 b1 b2 b3 rest, suf = t0 :: b1 :: b2 :: b3 :: rest ∧
            rest.length < uint24 [b1, b2, b3] ∧
            e = .truncPacket (b + t - rest.length) rest.length (uint24 [b1, b2, b3]))) := by
  intro fuel
  induction fuel with
  | zero => intro cur e h; omega
  | succ f ih =>
    intro cur e h herr
    match cur with
    | [] => rw [parseLoop_nil] at herr; exact absurd herr (by simp)
    | c :: cs =>
      rcases Nat.lt_or_ge (c :: cs).length 4 with hlen | hlen
      · rw [parseLoop_short b t f _ (by simp) hlen] at herr ⊢
        refine ⟨[], c :: cs, by simp, WFPackets.nil, by simp [ParsePackets, parseLoop_nil], ?_⟩
        left
        exact ⟨by simp, hlen, by simpa using herr.symm⟩
      · match cs with
        | b1 :: b2x :: b3 :: rest =>
          rw [parseLoop_cons] at herr ⊢
          by_cases hp : rest.length < uint24 [b1, b2x, b3]
          · rw [if_pos hp] at herr ⊢
            refine ⟨[], c :: b1 :: b2x :: b3 :: rest, by simp, WFPackets.nil,
              by simp [ParsePackets, parseLoop_nil], ?_⟩
            right
            exact ⟨c, b1, b2x, b3, rest, rfl, hp, by simpa using herr.symm⟩
          · rw [if_neg hp] at herr ⊢
            have hdl : (rest.drop (uint24 [b1, b2x, b3])).length < f := by
              simp at h ⊢; omega
            simp only at herr
            obtain ⟨pre, suf, hdec, hwf, hfst, hshape⟩ := ih _ e hdl herr
            set plen := uint24 [b1, b2x, b3] with hplen
            refine ⟨c :: b1 :: b2x :: b3 :: (rest.take plen ++ pre), suf, ?_, ?_, ?_, hshape⟩
            · simp only [List.cons_append, List.append_assoc]
              rw [← hdec, List.take_append_drop]
            · have htl : (rest.take plen).length = plen := by
                simp; omega
              refine WFPackets.cons c b1 b2x b3 (rest.take plen ++ pre) ?_ ?_
              · simp [htl]
              · rw [List.drop_left' htl]
                exact hwf
            · simp only
              rw [hfst]
              have htl : (rest.take plen).length = plen := by
                simp; omega
              have hpre4 : (c :: b1 :: b2x :: b3 :: (rest.take plen ++ pre)).length
                  = 4 + plen + pre.length := by simp [htl]; omega
              unfold ParsePackets
              rw [show (c :: b1 :: b2x :: b3 :: (rest.take plen ++ pre)).length + 1
                  = (4 + plen + pre.length) + 1 by rw [hpre4]]
              rw [parseLoop_cons]
              have hnp : ¬ (rest.take plen ++ pre).length < plen := by
                simp [htl]
              rw [if_neg hnp]
              rw [List.take_left' htl, List.drop_left' htl]
              congr 1
              exact (parseLoop_fst_ext 0 pre.length 0
                (c :: b1 :: b2x :: b3 :: (rest.take plen ++ pre)).length
                (pre.length + 1) (4 + plen + pre.length) pre (by omega) (by omega)).1

theorem addPacket_some {buf : List Nat} {pt : Nat} {data : List Nat}
    (h : data.length ≤ maxUint24) :
    addPacket buf pt data = some (buf ++ packetBytes ⟨pt, data⟩) := by
  unfold addPacket packetBytes
  rw [if_neg (by omega)]
  simp

theorem addPacketList_some {ps : List Packet}
    (h : ∀ p ∈ ps, p.Data.length ≤ maxUint24) :
    ∀ buf, addPacketList buf ps = some (buf ++ packetsBytes ps) := by
  induction ps with
  | nil => intro buf; simp [addPacketList, packetsBytes]
  | cons p ps ih =>
    intro buf
    rw [addPacketList, addPacket_some (h p (by simp))]
    simp only [Option.some_bind]
    rw [ih (fun q hq => h q (by simp [hq]))]
    simp [packetsBytes]

theorem packetBytes_length (p : Packet) : (packetBytes p).length = 4 + p.Data.length := by
  simp [packetBytes, bePutUint32]; omega

/-- Parsing one encoded packet off the front of the stream yields that packet
and continues with the remainder. -/
theorem parseLoop_packet (b t fuel : Nat) (p : Packet) (tail : List Nat)
    (hp : p.Data.length ≤ maxUint24) (_hfuel : tail.length < fuel) :
    parseLoop b t (fuel + 1) (packetBytes p ++ tail) =
      (⟨p.Ty, p.Data⟩ :: (parseLoop b t fuel tail).1, (parseLoop b t fuel tail).2) := by
  have hu : uint24 ((bePutUint32 (p.Data.length % 2 ^ 32)).drop 1) = p.Data.length :=
    uint24_bePutUint32 hp
  unfold packetBytes bePutUint32
  simp only [List.drop, List.cons_append, List.append_assoc]
  rw [parseLoop_cons]
  simp only [bePutUint32, List.drop] at hu
  rw [hu]
  rw [if_neg (by simp)]
  simp only [List.nil_append]
  rw [List.take_left' rfl, List.drop_left' rfl]

/-- Parsing the encoding of a packet list recovers exactly that list with no
error. -/
theorem parseLoop_packetsBytes {ps : List Packet}
    (h : ∀ p ∈ ps, p.Data.length ≤ maxUint24) (b t : Nat) :
    ∀ fuel, (packetsBytes ps).length < fuel →
      parseLoop b t fuel (packetsBytes ps) = (ps, none) := by
  induction ps with
  | nil => intro fuel _; rw [packetsBytes, parseLoop_nil]
  | cons p ps ih =>
    intro fuel hfuel
    rw [packetsBytes] at hfuel ⊢
    have hlb : 4 + p.Data.length + (packetsBytes ps).length
        = (packetBytes p ++ packetsBytes ps).length := by
      simp [packetBytes_length]
    match fuel with
    | f + 1 =>
      rw [parseLoop_packet b t f p (packetsBytes ps) (h p (by simp)) (by omega)]
      rw [ih (fun q hq => h q (by simp [hq])) f (by omega)]

/-! ## Claims about the packet codec -/

/-- C9.  `Buffer.AddPacket` aborts (modelled as `none`) exactly when the
payload exceeds `2^24 - 1` bytes; otherwise it appends exactly
`4 + len(payload)` bytes: the type byte, three big-endian length bytes that
decode back to the payload length, and the payload itself.  There is no
recoverable-error outcome in either case. -/
theorem addPacket_contract (buf : List Nat) (pt : Nat) (data : List Nat) :
    (addPacket buf pt data = none ↔ maxUint24 < data.length) ∧
    (∀ out, addPacket buf pt data = some out →
      ∃ b1 b2 b3, out = buf ++ pt :: b1 :: b2 :: b3 :: data ∧
        uint24 [b1, b2, b3] = data.length ∧
        out.length = buf.length + 4 + data.length) := by
  constructor
  · unfold addPacket
    by_cases h : data.length > maxUint24
    · rw [if_pos h]; simpa using h
    · rw [if_neg h]; simpa using h
  · intro out hout
    have hle : data.length ≤ maxUint24 := by
      by_contra hgt
      rw [addPacket, if_pos (by omega)] at hout
      exact absurd hout (by simp)
    rw [addPacket_some hle] at hout
    obtain rfl : buf ++ packetBytes ⟨pt, data⟩ = out := by
      simpa using hout
    refine ⟨(data.length % 2 ^ 32) >>> 16 % 256, (data.length % 2 ^ 32) >>> 8 % 256,
      data.length % 2 ^ 32 % 256, ?_, ?_, ?_⟩
    · simp [packetBytes, bePutUint32]
    · exact uint24_bePutUint32 hle
    · simp [packetBytes_length]; omega

/-- Witness for `addPacket_contract` at a concrete input. -/
theorem addPacket_contract_witness :
    ∃ b1 b2 b3, [9] ++ 5 :: b1 :: b2 :: b3 :: [7, 8] ++ [] = [9] ++ 5 :: b1 :: b2 :: b3 :: [7, 8] ∧
      uint24 [b1, b2, b3] = 2 ∧ True := by
  obtain ⟨b1, b2, b3, h1, h2, h3⟩ :=
    (addPacket_contract [9] 5 [7, 8]).2 ([9] ++ 5 :: (bePutUint32 (2 % 2 ^ 32)).drop 1 ++ [7, 8])
      (by decide)
  exact ⟨b1, b2, b3, by simp, h2, trivial⟩

/-- C3.  Encoding any sequence of packets whose payloads fit in the 3-byte
length field with successive `Buffer.AddPacket` calls, and parsing the
concatenated bytes back with `ParsePackets` at any base offset, returns
exactly the same packets in the same order with no error — including packets
of unknown or reserved types, which are never interpreted. -/
theorem addPacket_ParsePackets_roundTrip (ps : List Packet) (base : Nat)
    (h : ∀ p ∈ ps, p.Data.length ≤ maxUint24) :
    ∃ out, addPacketList [] ps = some out ∧ ParsePackets out base = (ps, none) := by
  refine ⟨packetsBytes ps, by simpa using addPacketList_some h [], ?_⟩
  unfold ParsePackets
  exact parseLoop_packetsBytes h base (packetsBytes ps).length ((packetsBytes ps).length + 1)
    (by omega)

/-- Witness for the round trip on a concrete packet list containing an unknown
packet type (200). -/
theorem addPacket_ParsePackets_roundTrip_witness :
    ∃ out, addPacketList [] [⟨2, [1, 2, 3]⟩, ⟨200, []⟩, ⟨5, [0, 0, 0, 9]⟩] = some out ∧
      ParsePackets out 11 = ([⟨2, [1, 2, 3]⟩, ⟨200, []⟩, ⟨5, [0, 0, 0, 9]⟩], none) :=
  addPacket_ParsePackets_roundTrip [⟨2, [1, 2, 3]⟩, ⟨200, []⟩, ⟨5, [0, 0, 0, 9]⟩] 11 (by decide)

/-- C4.  `ParsePackets` fails exactly when the scan reaches a point where a
nonzero number of bytes fewer than 4 remains for a header, or fewer than the
declared payload length remains; on failure it returns every complete packet
parsed before the failure point together with an error carrying the absolute
offset `base + bytes consumed` (the model is a total function, so it can
neither panic nor read out of bounds). -/
theorem ParsePackets_contract (data : List Nat) (base : Nat) :
    ((ParsePackets data base).2 = none ↔ WFPackets data) ∧
    (∀ e, (ParsePackets data base).2 = some e →
      ∃ pre suf, data = pre ++ suf ∧ WFPackets pre ∧ suf ≠ [] ∧
        (ParsePackets data base).1 = (ParsePackets pre base).1 ∧
        ((suf.length < 4 ∧ e = .truncHeader (base + pre.length)) ∨
         (∃ t0 b1 b2 b3 rest, suf = t0 :: b1 :: b2 :: b3 :: rest ∧
            rest.length < uint24 [b1, b2, b3] ∧
            e = .truncPacket (base + pre.length + 4) rest.length (uint24 [b1, b2, b3])))) := by
  constructor
  · exact parseLoop_none_iff base data.length (data.length + 1) data (by omega)
  · intro e herr
    obtain ⟨pre, suf, hdec, hwf, hfst, hshape⟩ :=
      parseLoop_err base data.length (data.length + 1) data e (by omega) herr
    have hlen : data.length = pre.length + suf.length := by
      rw [hdec]; simp
    have hpre : (ParsePackets pre 0).1 = (ParsePackets pre base).1 :=
      (parseLoop_fst_ext 0 pre.length base pre.length (pre.length + 1) (pre.length + 1) pre
        (by omega) (by omega)).1
    rcases hshape with ⟨hne, hl4, hve⟩ | ⟨t0, b1, b2, b3, rest, hsuf, hrl, hve⟩
    · exact ⟨pre, suf, hdec, hwf, hne, by rw [← hpre]; exact hfst,
        Or.inl ⟨hl4, by rw [hve]; congr 1; omega⟩⟩
    · refine ⟨pre, suf, hdec, hwf, by simp [hsuf], by rw [← hpre]; exact hfst, Or.inr ?_⟩
      refine ⟨t0, b1, b2, b3, rest, hsuf, hrl, ?_⟩
      rw [hve]
      congr 1
      have : suf.length = 4 + rest.length := by simp [hsuf]; omega
      omega

/-- Witness for `ParsePackets_contract` on a concrete truncated stream: one
complete packet followed by a header that declares 2 payload bytes when only
1 remains. -/
theorem ParsePackets_contract_witness :
    ∃ pre suf, [7, 0, 0, 1, 42, 5, 0, 0, 2, 9] = pre ++ suf ∧ WFPackets pre ∧ suf ≠ [] ∧
      (ParsePackets [7, 0, 0, 1, 42, 5, 0, 0, 2, 9] 3).1 = (ParsePackets pre 3).1 ∧
      ((suf.length < 4 ∧ PacketErr.truncPacket 12 1 2 = .truncHeader (3 + pre.length)) ∨
       (∃ t0 b1 b2 b3 rest, suf = t0 :: b1 :: b2 :: b3 :: rest ∧
          rest.length < uint24 [b1, b2, b3] ∧
          PacketErr.truncPacket 12 1 2
            = .truncPacket (3 + pre.length + 4) rest.length (uint24 [b1, b2, b3]))) :=
  (ParsePackets_contract [7, 0, 0, 1, 42, 5, 0, 0, 2, 9] 3).2 (.truncPacket 12 1 2) (by decide)

/-- C5.  `ParseKeyring` fails with a header-truncated condition on fewer than
4 bytes, with a bad-magic condition when the first byte is not `0xEC`, and
otherwise parses the bytes after the 4-byte header as a packet sequence at
base offset 4; on a packet-stream error it returns the packets decoded before
the failure point together with that error. -/
theorem ParseKeyring_contract (data : List Nat) :
    (data.length < 4 → ParseKeyring data = (⟨0, (0, 0), []⟩, some .headerTruncated)) ∧
    (4 ≤ data.length → data.getD 0 0 ≠ MagicByte →
      ParseKeyring data = (⟨0, (0, 0), []⟩, some .invalidHeader)) ∧
    ((ParseKeyring data).2 = none ↔
      4 ≤ data.length ∧ data.getD 0 0 = MagicByte ∧ WFPackets (data.drop 4)) ∧
    (∀ e, (ParseKeyring data).2 = some (.packet e) →
      (ParsePackets (data.drop 4) 4).2 = some e ∧
      (ParseKeyring data).1.Packets = (ParsePackets (data.drop 4) 4).1) := by
  refine ⟨?_, ?_, ?_, ?_⟩
  · intro h
    rw [ParseKeyring, if_pos h]
  · intro h hm
    rw [ParseKeyring, if_neg (by omega), if_pos hm]
  · by_cases h4 : data.length < 4
    · rw [ParseKeyring, if_pos h4]
      simp
      omega
    · by_cases hm : data.getD 0 0 ≠ MagicByte
      · rw [ParseKeyring, if_neg h4, if_pos hm]
        constructor
        · intro h; simp at h
        · intro ⟨h1, h2, h3⟩; exact absurd h2 hm
      · rw [ParseKeyring, if_neg h4, if_neg hm]
        push_neg at hm
        dsimp only
        rw [Option.map_eq_none']
        constructor
        · intro h
          refine ⟨by omega, hm, ?_⟩
          rw [← parseLoop_none_iff 4 (data.drop 4).length ((data.drop 4).length + 1)
            (data.drop 4) (by omega)]
          exact h
        · intro ⟨h1, h2, h3⟩
          exact (parseLoop_none_iff 4 (data.drop 4).length ((data.drop 4).length + 1)
            (data.drop 4) (by omega)).mpr h3
  · intro e he
    have h4 : ¬ data.length < 4 := by
      intro hlt
      rw [ParseKeyring, if_pos hlt] at he
      simp at he
    have hm : ¬ data.getD 0 0 ≠ MagicByte := by
      intro hne
      rw [ParseKeyring, if_neg h4, if_pos hne] at he
      simp at he
    rw [ParseKeyring, if_neg h4, if_neg hm] at he ⊢
    dsimp only at he ⊢
    match h : (ParsePackets (data.drop 4) 4).2 with
    | none => rw [h] at he; simp at he
    | some e2 =>
      rw [h] at he
      simp only [Option.map_some'] at he
      have he2 : e2 = e := by
        cases he
        rfl
      exact ⟨by rw [he2], rfl⟩

/-- Witness for `ParseKeyring_contract`: a container with a valid header whose
packet stream is truncated mid-payload. -/
theorem ParseKeyring_contract_witness :
    (ParsePackets ([0xec, 1, 0, 0, 7, 0, 0, 3, 1].drop 4) 4).2 = some (.truncPacket 8 1 3) ∧
    (ParseKeyring [0xec, 1, 0, 0, 7, 0, 0, 3, 1]).1.Packets
      = (ParsePackets ([0xec, 1, 0, 0, 7, 0, 0, 3, 1].drop 4) 4).1 :=
  (ParseKeyring_contract [0xec, 1, 0, 0, 7, 0, 0, 3, 1]).2.2.2 (.truncPacket 8 1 3) (by decide)

/-- C10.  `ParseActiveKey` accepts empty input as the id 0 ("none" marker),
fails exactly when the length is neither 0 nor 4, and on 4-byte input returns
the big-endian value without error — including an explicitly encoded zero,
which is indistinguishable from the empty-input marker even though
`ParseKeyInfo` rejects a zero key id. -/
theorem ParseActiveKey_contract (data : List Nat) :
    (data.length = 0 → ParseActiveKey data = .ok 0) ∧
    (data.length = 4 → ParseActiveKey data
      = .ok (beUint32 (data.getD 0 0) (data.getD 1 0) (data.getD 2 0) (data.getD 3 0))) ∧
    ((∃ er, ParseActiveKey data = .error er) ↔ data.length ≠ 0 ∧ data.length ≠ 4) ∧
    (ParseActiveKey [0, 0, 0, 0] = .ok 0 ∧ ParseActiveKey [] = .ok 0) ∧
    (∀ key, ParseKeyInfo ([0, 0, 0, 0] ++ key) = .error .invalidID) := by
  refine ⟨?_, ?_, ?_, ⟨by rfl, by rfl⟩, ?_⟩
  · intro h
    rw [ParseActiveKey, if_pos h]
  · intro h
    rw [ParseActiveKey, if_neg (by omega), if_neg (by omega)]
  · constructor
    · intro ⟨er, her⟩
      by_cases h0 : data.length = 0
      · rw [ParseActiveKey, if_pos h0] at her; simp at her
      · by_cases h4 : data.length = 4
        · rw [ParseActiveKey, if_neg h0, if_neg (by omega)] at her; simp at her
        · exact ⟨h0, h4⟩
    · intro ⟨h0, h4⟩
      exact ⟨.wrongLength data.length, by rw [ParseActiveKey, if_neg h0, if_pos h4]⟩
  · intro key
    have h4 : ([0, 0, 0, 0] ++ key).length = 4 + key.length := by simp; omega
    rw [ParseKeyInfo, if_neg (by omega)]
    simp [beUint32]

/-- Witness for `ParseActiveKey_contract` at concrete inputs: a 4-byte zero
encoding, a wrong-length input, and a zero-id key entry. -/
theorem ParseActiveKey_contract_witness :
    ParseActiveKey [0, 0, 0, 7] = .ok (beUint32 0 0 0 7) ∧
    (∃ er, ParseActiveKey [1, 2] = .error er) ∧
    ParseKeyInfo ([0, 0, 0, 0] ++ [5, 6]) = .error .invalidID :=
  ⟨(ParseActiveKey_contract [0, 0, 0, 7]).2.1 (by decide),
   (ParseActiveKey_contract [1, 2]).2.2.1.mpr (by decide),
   (ParseActiveKey_contract []).2.2.2.2 [5, 6]⟩

theorem sorted_idAt_lt {keys : List KeyInfo} (hs : SortedByID keys) {k m : Nat}
    (hkm : k < m) (hm : m < keys.length) :
    (keys.getD k default).ID < (keys.getD m default).ID := by
  have hk : k < keys.length := lt_trans hkm hm
  rw [List.getD_eq_getElem?_getD, List.getD_eq_getElem?_getD,
    List.getElem?_eq_getElem hk, List.getElem?_eq_getElem hm]
  exact List.pairwise_iff_get.mp hs ⟨k, hk⟩ ⟨m, hm⟩ hkm

/-- The binary-search loop computes the lower bound of the target id: every
index below the result holds a smaller id, every index at or above it (and in
range) holds an id at least as large. -/
theorem bsLoop_spec (keys : List KeyInfo) (id : Nat) (hs : SortedByID keys) :
    ∀ fuel i j, j ≤ keys.length → i ≤ j → j - i < fuel →
      (∀ k, k < i → (keys.getD k default).ID < id) →
      (∀ k, j ≤ k → k < keys.length → ¬ (keys.getD k default).ID < id) →
      i ≤ bsLoop keys id fuel i j ∧ bsLoop keys id fuel i j ≤ j ∧
      (∀ k, k < bsLoop keys id fuel i j → (keys.getD k default).ID < id) ∧
      (∀ k, bsLoop keys id fuel i j ≤ k → k < keys.length →
        ¬ (keys.getD k default).ID < id) := by
  intro fuel
  induction fuel with
  | zero => intro i j _ _ h; omega
  | succ f ih =>
    intro i j hj hij hfuel hlow hhigh
    rw [bsLoop]
    by_cases hlt : i < j
    · rw [if_pos hlt]
      simp only
      by_cases hcmp : (keys.getD ((i + j) / 2) default).ID < id
      · rw [if_pos hcmp]
        have hres := ih ((i + j) / 2 + 1) j hj (by omega) (by omega) ?_ hhigh
        · exact ⟨by omega, hres.2.1, hres.2.2.1, hres.2.2.2⟩
        · intro k hk
          rcases Nat.lt_or_ge k i with hki | hki
          · exact hlow k hki
          · rcases Nat.eq_or_lt_of_le (Nat.le_of_lt_succ hk) with heq | hlt2
            · rw [heq]; exact hcmp
            · exact lt_trans (sorted_idAt_lt hs hlt2 (by omega)) hcmp
      · rw [if_neg hcmp]
        have hres := ih i ((i + j) / 2) (by omega) (by omega) (by omega) hlow ?_
        · exact ⟨hres.1, by omega, hres.2.2.1, hres.2.2.2⟩
        · intro k hk hkn
          rcases Nat.eq_or_lt_of_le hk with heq | hlt2
          · rw [← heq]; exact hcmp
          · rcases Nat.lt_or_ge k j with hkj | hkj
            · intro habs
              exact hcmp (lt_of_le_of_lt (le_of_lt (sorted_idAt_lt hs hlt2 hkn)) habs)
            · exact hhigh k hkj hkn
    · rw [if_neg hlt]
      have hij2 : i = j := by omega
      exact ⟨le_refl i, by omega, hlow, fun k hk hkn => hhigh k (by omega) hkn⟩

/-- When some entry holds the target id, `FindKey` returns exactly its
index. -/
theorem FindKey_found {keys : List KeyInfo} {id m : Nat} (hs : SortedByID keys)
    (hm : m < keys.length) (hid : (keys.getD m default).ID = id) :
    FindKey keys id = (m : Int) := by
  obtain ⟨h1, h2, hlow, hhigh⟩ := bsLoop_spec keys id hs (keys.length + 1) 0 keys.length
    (le_refl _) (Nat.zero_le _) (by omega) (by omega) (by intro k hk hkn; omega)
  set pos := bsLoop keys id (keys.length + 1) 0 keys.length with hpos
  have hposm : pos = m := by
    rcases Nat.lt_trichotomy pos m with h | h | h
    · have := sorted_idAt_lt hs h hm
      rw [hid] at this
      exact absurd this (hhigh pos (le_refl _) (by omega))
    · exact h
    · have := hlow m h
      rw [hid] at this
      omega
  rw [FindKey]
  simp only [← hpos]
  rw [if_pos ⟨by omega, by rw [hposm]; exact hid⟩, hposm]

/-- When no entry holds the target id, `FindKey` returns -1. -/
theorem FindKey_not_mem {keys : List KeyInfo} {id : Nat} (h : id ∉ keys.map KeyInfo.ID) :
    FindKey keys id = -1 := by
  rw [FindKey]
  by_cases hc : bsLoop keys id (keys.length + 1) 0 keys.length < keys.length ∧
      (keys.getD (bsLoop keys id (keys.length + 1) 0 keys.length) default).ID = id
  · exfalso
    apply h
    rw [List.mem_map]
    refine ⟨keys.getD (bsLoop keys id (keys.length + 1) 0 keys.length) default, ?_, hc.2⟩
    rw [List.getD_eq_getElem?_getD, List.getElem?_eq_getElem hc.1]
    exact List.getElem_mem _
  · rw [if_neg hc]

/-- C6.  For a key list sorted strictly ascending by id, `FindKey` returns the
index of the entry holding `id` when one exists and -1 otherwise; hence the
lookups built on it (`Has`, `Activate`, `Append`, `Get`) find an id exactly
when it is present. -/
theorem FindKey_contract (keys : List KeyInfo) (id : Nat) (hs : SortedByID keys) :
    (id ∈ keys.map KeyInfo.ID →
      ∃ m, ∃ hm : m < keys.length, FindKey keys id = (m : Int) ∧
        (keys.get ⟨m, hm⟩).ID = id) ∧
    (id ∉ keys.map KeyInfo.ID → FindKey keys id = -1) ∧
    (0 ≤ FindKey keys id ↔ id ∈ keys.map KeyInfo.ID) := by
  have hfwd : id ∈ keys.map KeyInfo.ID →
      ∃ m, ∃ hm : m < keys.length, FindKey keys id = (m : Int) ∧
        (keys.get ⟨m, hm⟩).ID = id := by
    intro hmem
    rw [List.mem_map] at hmem
    obtain ⟨ki, hki, hid⟩ := hmem
    obtain ⟨m, hm⟩ := List.get_of_mem hki
    have hgd : (keys.getD (m : Nat) default).ID = id := by
      rw [List.getD_eq_getElem?_getD, List.getElem?_eq_getElem m.isLt]
      simp only [List.get_eq_getElem] at hm
      rw [hm]
      exact hid
    exact ⟨m, m.isLt, FindKey_found hs m.isLt hgd, by
      simp only [List.get_eq_getElem]
      rw [← hm] at hid
      simpa using hid⟩
  refine ⟨hfwd, fun h => FindKey_not_mem h, ?_, ?_⟩
  · intro hge
    by_contra hmem
    rw [FindKey_not_mem hmem] at hge
    omega
  · intro hmem
    obtain ⟨m, hm, heq, _⟩ := hfwd hmem
    rw [heq]
    exact Int.ofNat_nonneg m

/-- Witness for `FindKey_contract`: a concrete sorted list probed with a
present and an absent id. -/
theorem FindKey_contract_witness :
    (∃ m, ∃ hm : m < [⟨1, [10]⟩, ⟨3, [20]⟩, (⟨7, []⟩ : KeyInfo)].length,
      FindKey [⟨1, [10]⟩, ⟨3, [20]⟩, ⟨7, []⟩] 3 = (m : Int) ∧
      ([⟨1, [10]⟩, ⟨3, [20]⟩, (⟨7, []⟩ : KeyInfo)].get ⟨m, hm⟩).ID = 3) ∧
    FindKey [⟨1, [10]⟩, ⟨3, [20]⟩, ⟨7, []⟩] 5 = -1 :=
  ⟨(FindKey_contract [⟨1, [10]⟩, ⟨3, [20]⟩, ⟨7, []⟩] 3 (by decide)).1 (by decide),
   (FindKey_contract [⟨1, [10]⟩, ⟨3, [20]⟩, ⟨7, []⟩] 5 (by decide)).2.1 (by decide)⟩

theorem decrypt_encrypt {key data nonce : List Nat} {out : Nat × List Nat}
    (hk : key.length = KeyLen) (hn : nonce.length = NonceSize)
    (he : EncryptWithKey key data nonce = some out) :
    DecryptWithKey key out.2 = some data := by
  rw [EncryptWithKey, if_neg (by omega)] at he
  cases he
  rw [DecryptWithKey, if_neg (by omega), if_neg (by simp; omega)]
  simp only [aeadSeal, aeadOpen]
  rw [List.drop_left' hn, List.take_left' hk, List.drop_left' hk]
  rw [if_pos ⟨hk, rfl⟩]

theorem decrypt_encrypt_wrong_key {key key2 data nonce : List Nat} {out : Nat × List Nat}
    (hk : key.length = KeyLen) (hk2 : key2.length = KeyLen) (hne : key2 ≠ key)
    (hn : nonce.length = NonceSize)
    (he : EncryptWithKey key data nonce = some out) :
    DecryptWithKey key2 out.2 = none := by
  rw [EncryptWithKey, if_neg (by omega)] at he
  cases he
  rw [DecryptWithKey, if_neg (by omega), if_neg (by simp; omega)]
  simp only [aeadSeal, aeadOpen]
  rw [List.drop_left' hn, List.take_left' hk]
  rw [if_neg (by rintro ⟨-, h⟩; exact hne h.symm)]

theorem newRing_inv {cfg : Config} {dek nonce : List Nat} {r : Ring}
    (hnew : NewRing cfg dek nonce = some r)
    (hdek : dek.length = KeyLen) (hn : nonce.length = NonceSize) :
    RingInv cfg.AccessKey r := by
  rw [NewRing] at hnew
  by_cases hk : cfg.AccessKey.length ≠ AccessKeyLen
  · rw [if_pos hk] at hnew; simp at hnew
  · rw [if_neg hk] at hnew
    push_neg at hk
    by_cases hik : cfg.InitialKey.length = 0
    · rw [if_pos hik] at hnew; simp at hnew
    · rw [if_neg hik] at hnew
      rw [EncryptWithKey, if_neg (by simp [hk, AccessKeyLen])] at hnew
      cases hnew
      exact ⟨rfl, hk, hdek, ⟨nonce, hn, rfl⟩, by simp [List.range'], rfl, by simp⟩

/-- A non-negative `FindKey` result is an in-range index holding the id. -/
theorem findKey_nonneg {keys : List KeyInfo} {id : Nat}
    (h : 0 ≤ FindKey keys id) :
    (FindKey keys id).toNat < keys.length ∧
    (keys.getD (FindKey keys id).toNat default).ID = id := by
  rw [FindKey] at h ⊢
  by_cases hc : bsLoop keys id (keys.length + 1) 0 keys.length < keys.length ∧
      (keys.getD (bsLoop keys id (keys.length + 1) 0 keys.length) default).ID = id
  · rw [if_pos hc] at h ⊢
    simpa using hc
  · rw [if_neg hc] at h
    omega

theorem applyOp_inv {accessKey : List Nat} {r r2 : Ring} {op : RingOp}
    (hinv : RingInv accessKey r) (hop : applyOp r op = some r2) :
    RingInv accessKey r2 := by
  obtain ⟨hv, hak, hdk, hdke, hids, hmax, hact⟩ := hinv
  match op with
  | .add data | .addRandom data =>
    simp only [applyOp, RingAdd] at hop
    by_cases hd : data.length = 0
    · rw [if_pos hd] at hop; simp at hop
    · rw [if_neg hd] at hop
      simp only [Option.map_some', Option.some.injEq] at hop
      cases hop
      refine ⟨hv, hak, hdk, hdke, ?_, ?_, ?_⟩
      · simp only [addBytes, List.map_append, hids, hmax, List.length_append,
          List.map_cons, List.map_nil, List.length_cons, List.length_nil]
        rw [show r.keys.length + (0 + 1) = r.keys.length + 1 by omega,
          List.range'_concat]
        simp
        omega
      · simp [addBytes, hmax]
      · simp only [addBytes, List.length_append, List.length_cons, List.length_nil]
        omega
  | .activate id =>
    simp only [applyOp, RingActivate] at hop
    by_cases hneg : FindKey r.keys id < 0
    · rw [if_pos hneg] at hop; simp at hop
    · rw [if_neg hneg] at hop
      simp only [Option.some.injEq] at hop
      cases hop
      exact ⟨hv, hak, hdk, hdke, hids, hmax, (findKey_nonneg (by omega)).1⟩

theorem runOps_inv {accessKey : List Nat} {r r2 : Ring} {ops : List RingOp}
    (hinv : RingInv accessKey r) (hops : runOps r ops = some r2) :
    RingInv accessKey r2 := by
  induction ops generalizing r with
  | nil => rw [runOps] at hops; cases hops; exact hinv
  | cons op ops ih =>
    rw [runOps] at hops
    match hstep : applyOp r op with
    | none => rw [hstep] at hops; simp at hops
    | some rmid =>
      rw [hstep] at hops
      simp only [Option.some_bind] at hops
      exact ih (applyOp_inv hinv hstep) hops

theorem addEntryList_eq (ks : List KeyInfo) :
    ∀ buf, addEntryList buf ks = addPacketList buf (ks.map entryPacket) := by
  induction ks with
  | nil => intro buf; rfl
  | cons ki ks ih =>
    intro buf
    simp only [addEntryList, List.map_cons, addPacketList, AddKeyringEntry, entryPacket]
    cases addPacket buf KeyringEntryType (bePutUint32 (ki.ID % 2 ^ 32) ++ ki.Key) with
    | none => rfl
    | some b => simp [ih]

theorem addPacket_bound {buf : List Nat} {pt : Nat} {data o : List Nat}
    (h : addPacket buf pt data = some o) : data.length ≤ maxUint24 := by
  by_contra hgt
  rw [addPacket, if_pos (by omega)] at h
  exact absurd h (by simp)

theorem addPacketList_inv {ps : List Packet} :
    ∀ {buf o : List Nat}, addPacketList buf ps = some o →
      (∀ p ∈ ps, p.Data.length ≤ maxUint24) ∧ o = buf ++ packetsBytes ps := by
  induction ps with
  | nil =>
    intro buf o h
    rw [addPacketList] at h
    cases h
    simp [packetsBytes]
  | cons p ps ih =>
    intro buf o h
    rw [addPacketList] at h
    match haddp : addPacket buf p.Ty p.Data with
    | none => rw [haddp] at h; simp at h
    | some b1 =>
      rw [haddp] at h
      simp only [Option.some_bind] at h
      have hple : p.Data.length ≤ maxUint24 := addPacket_bound haddp
      have hb1 : b1 = buf ++ packetBytes p := by
        rw [addPacket_some hple] at haddp
        cases haddp
        rfl
      obtain ⟨hall, ho⟩ := ih h
      refine ⟨?_, ?_⟩
      · intro q hq
        rcases List.mem_cons.mp hq with rfl | hq2
        · exact hple
        · exact hall q hq2
      · rw [ho, hb1, packetsBytes, List.append_assoc]

theorem bePutUint32_length (n : Nat) : (bePutUint32 n).length = 4 := by
  simp [bePutUint32]

/-- Structure of the bytes produced by a successful `WriteTo`: a header, a
salt packet, a wrapped-DEK packet, and a bundle sealed under the plaintext
DEK containing the active-id packet followed by the entry packets in key-list
order; all payloads are within the 24-bit bound. -/
theorem writeTo_shape {r : Ring} {nonce out : List Nat}
    (hW : WriteTo r nonce = some out) :
    ∃ inner sealed,
      r.dkPlaintext.length = KeyLen ∧
      sealed = nonce ++ aeadSeal r.dkPlaintext inner ∧
      inner = packetsBytes
        (⟨ActiveKeyType, bePutUint32 ((r.keys.getD r.activeKey default).ID % 2 ^ 32)⟩
          :: r.keys.map entryPacket) ∧
      (∀ p ∈ r.keys.map entryPacket, p.Data.length ≤ maxUint24) ∧
      r.accessKeySalt.length ≤ maxUint24 ∧ r.dkEncrypted.length ≤ maxUint24 ∧
      sealed.length ≤ maxUint24 ∧
      out = WriteHeader r.formatVersion (0, 0) ++ packetsBytes
        [⟨AccessKeySaltType, r.accessKeySalt⟩, ⟨DataKeyType, r.dkEncrypted⟩,
         ⟨BundleType, sealed⟩] := by
  rw [WriteTo] at hW
  simp only [Option.bind_eq_bind] at hW
  obtain ⟨inner0, h0, hW⟩ := Option.bind_eq_some.mp hW
  obtain ⟨inner, h1, hW⟩ := Option.bind_eq_some.mp hW
  obtain ⟨sealedPair, h2, hW⟩ := Option.bind_eq_some.mp hW
  obtain ⟨b1, h3, hW⟩ := Option.bind_eq_some.mp hW
  obtain ⟨b2, h4, hW⟩ := Option.bind_eq_some.mp hW
  rw [AddActiveKey,
    addPacket_some (by rw [bePutUint32_length]; decide)] at h0
  simp only [List.nil_append, Option.some.injEq] at h0
  rw [addEntryList_eq] at h1
  obtain ⟨hentb, hinner⟩ := addPacketList_inv h1
  rw [EncryptWithKey] at h2
  by_cases hdk : r.dkPlaintext.length ≠ KeyLen
  · rw [if_pos hdk] at h2; simp at h2
  · rw [if_neg hdk] at h2
    push_neg at hdk
    simp only [Option.some.injEq] at h2
    have hsalt : r.accessKeySalt.length ≤ maxUint24 := addPacket_bound h3
    have hdke : r.dkEncrypted.length ≤ maxUint24 := addPacket_bound h4
    have hsealed : sealedPair.2.length ≤ maxUint24 := addPacket_bound hW
    rw [addPacket_some hsalt] at h3
    rw [addPacket_some hdke] at h4
    rw [addPacket_some hsealed] at hW
    cases h3
    cases h4
    simp only [Option.some.injEq] at hW
    refine ⟨inner, sealedPair.2, hdk, ?_, ?_, hentb, hsalt, hdke, hsealed, ?_⟩
    · rw [← h2]
    · rw [hinner, ← h0, packetsBytes]
    · rw [← hW, packetsBytes, packetsBytes, packetsBytes, packetsBytes]
      simp [List.append_assoc]

/-! ## Helper lemmas for reading back a written Ring -/

theorem packetsBytes_length_ge (ps : List Packet) :
    4 * ps.length ≤ (packetsBytes ps).length := by
  induction ps with
  | nil => simp [packetsBytes]
  | cons p ps ih =>
    rw [packetsBytes]
    simp only [List.length_append, packetBytes_length, List.length_cons]
    omega

theorem foldl_max_ids :
    ∀ (ks : List KeyInfo) (s a : Nat), ks.map KeyInfo.ID = List.range' s ks.length →
      a < s → ks.foldl (fun m ki => max m ki.ID) a
        = if ks.length = 0 then a else s + (ks.length - 1) := by
  intro ks
  induction ks with
  | nil => intro s a _ _; simp
  | cons ki ks ih =>
    intro s a hmap ha
    rw [List.length_cons, List.range'_succ, List.map_cons] at hmap
    obtain ⟨hhead, htail⟩ := List.cons.inj hmap
    rw [List.foldl_cons]
    have hmax : max a ki.ID = s := by rw [hhead]; omega
    rw [hmax, ih (s + 1) s htail (by omega)]
    rcases Nat.eq_zero_or_pos ks.length with h0 | h0
    · simp [h0, hhead]
    · rw [if_neg (by omega), if_neg (by simp)]
      simp only [List.length_cons]
      omega

theorem parseEntryList_map {ks : List KeyInfo}
    (h : ∀ ki ∈ ks, 1 ≤ ki.ID ∧ ki.ID < 2 ^ 32) :
    parseEntryList (ks.map entryPacket) = some ks := by
  induction ks with
  | nil => rfl
  | cons ki ks ih =>
    rw [List.map_cons, parseEntryList]
    have hid := h ki (by simp)
    have hmod : ki.ID % 2 ^ 32 = ki.ID := Nat.mod_eq_of_lt hid.2
    have hpki : ParseKeyInfo (entryPacket ki).Data = .ok ki := by
      rw [entryPacket]
      simp only
      rw [ParseKeyInfo, if_neg (by simp [bePutUint32]), hmod]
      have hdec : beUint32 ((bePutUint32 ki.ID ++ ki.Key).getD 0 0)
          ((bePutUint32 ki.ID ++ ki.Key).getD 1 0)
          ((bePutUint32 ki.ID ++ ki.Key).getD 2 0)
          ((bePutUint32 ki.ID ++ ki.Key).getD 3 0) = ki.ID := by
        simp only [bePutUint32, List.cons_append, List.getD_cons_zero, List.getD_cons_succ]
        exact beUint32_bePutUint32 hid.2
      rw [hdec, if_neg (by omega)]
      simp [bePutUint32]
    have hty : ((entryPacket ki).Ty == KeyringEntryType) = true := by
      rw [entryPacket]
      rfl
    rw [hty, if_pos rfl, hpki, ih (fun q hq => h q (by simp [hq]))]
    rfl

/-- Ids of a Ring satisfying the invariant, read off positionally. -/
theorem inv_idAt {r : Ring} (hids : r.keys.map KeyInfo.ID = List.range' 1 r.keys.length)
    {i : Nat} (hi : i < r.keys.length) :
    (r.keys.getD i default).ID = 1 + i := by
  rw [List.getD_eq_getElem?_getD, List.getElem?_eq_getElem hi]
  have hq : (r.keys.map KeyInfo.ID)[i]? = (List.range' 1 r.keys.length)[i]? := by
    rw [hids]
  rw [List.getElem?_eq_getElem (by simpa using hi),
    List.getElem?_eq_getElem (by rw [List.length_range']; exact hi)] at hq
  simp only [List.getElem_map, List.getElem_range', Option.some.injEq] at hq
  simpa using hq

/-- Core round trip: a Ring satisfying the invariant that is successfully
serialized is read back identically by `ReadRing`, provided the access-key
function returns the wrapping key on the persisted salt. -/
theorem writeRead {accessKey : List Nat} {r : Ring} {nonce out : List Nat}
    (akf : List Nat → List Nat)
    (hinv : RingInv accessKey r) (hW : WriteTo r nonce = some out)
    (hn : nonce.length = NonceSize)
    (hakf : akf r.accessKeySalt = accessKey) :
    ReadRing out akf = some r := by
  obtain ⟨hv, hak, hdkp, ⟨n0, hn0, hdke⟩, hids, hmax, hact⟩ := hinv
  obtain ⟨inner, sealed, hdk2, hsealed_eq, hinner, hentb, hsaltb, hdkeb, hsealb, hout⟩ :=
    writeTo_shape hW
  have hinner_len : 4 * (1 + r.keys.length) ≤ inner.length := by
    rw [hinner]
    have hpb := packetsBytes_length_ge
      (⟨ActiveKeyType, bePutUint32 ((r.keys.getD r.activeKey default).ID % 2 ^ 32)⟩
        :: r.keys.map entryPacket)
    simp only [List.length_cons, List.length_map] at hpb
    omega
  have hsealed_len : sealed.length = NonceSize + (KeyLen + inner.length) := by
    rw [hsealed_eq]
    simp [aeadSeal, hn, hdk2]
  have hmax24 : maxUint24 = 16777215 := rfl
  have hn32 : r.keys.length < 2 ^ 32 := by
    have hsb := hsealb
    rw [hsealed_len] at hsb
    have h1 : NonceSize = 24 := rfl
    have h2 : KeyLen = 32 := rfl
    omega
  have hid_bound : ∀ ki ∈ r.keys, 1 ≤ ki.ID ∧ ki.ID < 2 ^ 32 := by
    intro ki hki
    have hm : ki.ID ∈ r.keys.map KeyInfo.ID := List.mem_map_of_mem _ hki
    rw [hids, List.mem_range'_1] at hm
    omega
  have haid : (r.keys.getD r.activeKey default).ID = 1 + r.activeKey := inv_idAt hids hact
  have haid32 : (r.keys.getD r.activeKey default).ID < 2 ^ 32 := by omega
  have hmod_aid : (r.keys.getD r.activeKey default).ID % 2 ^ 32
      = (r.keys.getD r.activeKey default).ID := Nat.mod_eq_of_lt haid32
  have houter : ParsePackets (packetsBytes
      [⟨AccessKeySaltType, r.accessKeySalt⟩, ⟨DataKeyType, r.dkEncrypted⟩,
       ⟨BundleType, sealed⟩]) 4
      = ([⟨AccessKeySaltType, r.accessKeySalt⟩, ⟨DataKeyType, r.dkEncrypted⟩,
          ⟨BundleType, sealed⟩], none) := by
    apply parseLoop_packetsBytes ?_ 4 _ _ (by omega)
    intro p hp
    simp only [List.mem_cons, List.not_mem_nil, or_false] at hp
    rcases hp with rfl | rfl | rfl
    · exact hsaltb
    · exact hdkeb
    · exact hsealb
  have hpk : ParseKeyring out = (⟨1, (0, 0),
      [⟨AccessKeySaltType, r.accessKeySalt⟩, ⟨DataKeyType, r.dkEncrypted⟩,
       ⟨BundleType, sealed⟩]⟩, none) := by
    rw [hout, hv, WriteHeader]
    rw [ParseKeyring]
    rw [if_neg (by simp)]
    rw [if_neg (by simp [MagicByte])]
    simp only [List.cons_append, List.getD_cons_zero, List.getD_cons_succ,
      List.drop_succ_cons, List.drop_zero, List.nil_append]
    rw [houter]
    rfl
  have hd1 : DecryptWithKey (akf r.accessKeySalt) r.dkEncrypted = some r.dkPlaintext := by
    rw [hakf]
    exact @decrypt_encrypt accessKey r.dkPlaintext n0 (NonceSize, r.dkEncrypted) hak hn0
      (by rw [EncryptWithKey, if_neg (by omega), hdke])
  have hd2 : DecryptWithKey r.dkPlaintext sealed = some inner :=
    @decrypt_encrypt r.dkPlaintext inner nonce (NonceSize, sealed) hdkp hn
      (by rw [EncryptWithKey, if_neg (by omega), hsealed_eq])
  have hip : ParsePackets inner 0 =
      (⟨ActiveKeyType, bePutUint32 ((r.keys.getD r.activeKey default).ID % 2 ^ 32)⟩
        :: r.keys.map entryPacket, none) := by
    rw [hinner]
    apply parseLoop_packetsBytes ?_ 0 _ _ (by omega)
    intro p hp
    simp only [List.mem_cons] at hp
    rcases hp with rfl | hp2
    · simp only [bePutUint32_length]
      omega
    · exact hentb p hp2
  have hpa : (ParseActiveKey
      (bePutUint32 ((r.keys.getD r.activeKey default).ID % 2 ^ 32))).toOption
      = some (r.keys.getD r.activeKey default).ID := by
    rw [hmod_aid, ParseActiveKey, if_neg (by simp [bePutUint32]),
      if_neg (by simp [bePutUint32])]
    simp only [bePutUint32, List.getD_cons_zero, List.getD_cons_succ]
    rw [beUint32_bePutUint32 haid32]
    rfl
  have hpel : parseEntryList
      (⟨ActiveKeyType, bePutUint32 ((r.keys.getD r.activeKey default).ID % 2 ^ 32)⟩
        :: r.keys.map entryPacket) = some r.keys := by
    have hskip : parseEntryList
        (⟨ActiveKeyType, bePutUint32 ((r.keys.getD r.activeKey default).ID % 2 ^ 32)⟩
          :: r.keys.map entryPacket) = parseEntryList (r.keys.map entryPacket) := rfl
    rw [hskip]
    exact parseEntryList_map hid_bound
  have hsortedID : SortedByID r.keys := by
    apply List.pairwise_map.mp
    rw [hids]
    exact List.pairwise_lt_range' 1 r.keys.length
  have hsort_eq : SortKeysByID r.keys = r.keys := by
    apply List.Sorted.insertionSort_eq
    exact hsortedID.imp (fun hab => Nat.le_of_lt hab)
  have hnodup : (r.keys.map KeyInfo.ID).Nodup := by
    rw [hids]
    exact List.nodup_range' 1 r.keys.length
  have hfk : FindKey r.keys (r.keys.getD r.activeKey default).ID = (r.activeKey : Int) :=
    FindKey_found hsortedID hact rfl
  have hfold : r.keys.foldl (fun m ki => max m ki.ID) 0 = r.maxID := by
    rw [foldl_max_ids r.keys 1 0 hids (by omega)]
    rw [if_neg (by omega), hmax]
    omega
  rw [ReadRing]
  rw [hpk]
  dsimp only
  rw [if_neg (by simp), if_neg (by simp), if_neg (by simp)]
  have hf3 : findPacket
      [⟨AccessKeySaltType, r.accessKeySalt⟩, ⟨DataKeyType, r.dkEncrypted⟩,
       ⟨BundleType, sealed⟩] AccessKeySaltType = some ⟨AccessKeySaltType, r.accessKeySalt⟩ := rfl
  have hf2 : findPacket
      [⟨AccessKeySaltType, r.accessKeySalt⟩, ⟨DataKeyType, r.dkEncrypted⟩,
       ⟨BundleType, sealed⟩] DataKeyType = some ⟨DataKeyType, r.dkEncrypted⟩ := rfl
  have hf6 : findPacket
      [⟨AccessKeySaltType, r.accessKeySalt⟩, ⟨DataKeyType, r.dkEncrypted⟩,
       ⟨BundleType, sealed⟩] BundleType = some ⟨BundleType, sealed⟩ := rfl
  rw [hf3, hf2, hf6]
  simp only [Option.bind_eq_bind, Option.some_bind]
  rw [hd1]
  simp only [Option.some_bind]
  rw [hd2]
  simp only [Option.some_bind]
  rw [hip]
  dsimp only
  rw [if_neg (by simp)]
  have hf5 : findPacket
      (⟨ActiveKeyType, bePutUint32 ((r.keys.getD r.activeKey default).ID % 2 ^ 32)⟩
        :: r.keys.map entryPacket) ActiveKeyType
      = some ⟨ActiveKeyType, bePutUint32 ((r.keys.getD r.activeKey default).ID % 2 ^ 32)⟩ := rfl
  rw [hf5]
  dsimp only
  rw [hpa]
  simp only [Option.some_bind]
  rw [hpel]
  simp only [Option.some_bind]
  rw [hsort_eq]
  rw [if_neg (not_not_intro hnodup)]
  rw [if_neg (by omega)]
  rw [hfk]
  rw [if_neg (by omega)]
  have htn : ((r.activeKey : Int)).toNat = r.activeKey := by omega
  rw [htn, hfold, ← hv]

/-- C1.  A Ring built by `New` from a valid Config and mutated by any
successful sequence of `Add`/`AddRandom`/`Activate` operations is reproduced
exactly — same key ids, same key bytes, same active id — by serializing it
with `WriteTo` and reading the produced bytes back with `Read`, when the
access-key function returns the original AccessKey on the persisted salt.
The `dek`, `n0` and `nonce` arguments are the random values drawn inside
`New` and `WriteTo`, with the lengths the entropy source guarantees. -/
theorem newWriteRead_roundTrip {cfg : Config} {dek n0 : List Nat} {r0 r : Ring}
    {ops : List RingOp} {nonce out : List Nat} (akf : List Nat → List Nat)
    (hnew : NewRing cfg dek n0 = some r0)
    (hdek : dek.length = KeyLen) (hn0 : n0.length = NonceSize)
    (hops : runOps r0 ops = some r)
    (hW : WriteTo r nonce = some out) (hn : nonce.length = NonceSize)
    (hakf : akf r.accessKeySalt = cfg.AccessKey) :
    ReadRing out akf = some r :=
  writeRead akf (runOps_inv (newRing_inv hnew hdek hn0) hops) hW hn hakf

set_option maxRecDepth 100000 in
/-- Witness for `newWriteRead_roundTrip` on the concrete inputs above. -/
theorem newWriteRead_roundTrip_witness : ReadRing wOut (fun _ => wK) = some wR := by
  have h1 : NewRing wCfg wDek wN0 = some wR0 := by decide
  have h2 : wDek.length = KeyLen := by decide
  have h3 : wN0.length = NonceSize := by decide
  have h4 : runOps wR0 wOps = some wR := by decide
  have h5 : WriteTo wR wN1 = some wOut := by decide
  have h6 : wN1.length = NonceSize := by decide
  have h7 : (fun _ => wK : List Nat → List Nat) wR.accessKeySalt = wCfg.AccessKey := by decide
  exact newWriteRead_roundTrip (fun _ => wK) h1 h2 h3 h4 h5 h6 h7

/-! ## Monotonic id allocation -/

theorem foldl_max_init_le (ks : List KeyInfo) :
    ∀ a : Nat, a ≤ ks.foldl (fun m ki => max m ki.ID) a := by
  induction ks with
  | nil => intro a; simp
  | cons ki ks ih =>
    intro a
    rw [List.foldl_cons]
    exact le_trans (Nat.le_max_left a ki.ID) (ih (max a ki.ID))

theorem foldl_max_mem_le {ks : List KeyInfo} {ki : KeyInfo} (hki : ki ∈ ks) :
    ∀ a : Nat, ki.ID ≤ ks.foldl (fun m ki => max m ki.ID) a := by
  induction ks with
  | nil => cases hki
  | cons k ks ih =>
    intro a
    rw [List.foldl_cons]
    rcases List.mem_cons.mp hki with rfl | hmem
    · exact le_trans (Nat.le_max_right a ki.ID) (foldl_max_init_le ks _)
    · exact ih hmem _

set_option maxHeartbeats 1000000 in
/-- Every successfully loaded Ring records its `maxID` as the fold of `max`
over the stored ids. -/
theorem readRing_maxID {data : List Nat} {akf : List Nat → List Nat} {r2 : Ring}
    (h : ReadRing data akf = some r2) :
    r2.maxID = r2.keys.foldl (fun m ki => max m ki.ID) 0 := by
  rw [ReadRing] at h
  split at h
  · simp at h
  split at h
  · simp at h
  split at h
  · simp at h
  obtain ⟨saltPkt, hs, h⟩ := Option.bind_eq_some.mp h
  obtain ⟨dekPkt, hd, h⟩ := Option.bind_eq_some.mp h
  obtain ⟨bundlePkt, hb, h⟩ := Option.bind_eq_some.mp h
  obtain ⟨dkPlain, hdk, h⟩ := Option.bind_eq_some.mp h
  obtain ⟨inner, hin, h⟩ := Option.bind_eq_some.mp h
  dsimp only at h
  split at h
  · simp at h
  split at h
  all_goals obtain ⟨aid, hpa, h⟩ := Option.bind_eq_some.mp h
  all_goals obtain ⟨entries, he, h⟩ := Option.bind_eq_some.mp h
  all_goals split at h
  any_goals exact Option.noConfusion h
  all_goals split at h
  all_goals try split at h
  any_goals exact Option.noConfusion h
  all_goals obtain ⟨pos, hpos, h⟩ := Option.bind_eq_some.mp h
  all_goals rw [← Option.some.inj h]

/-- C8.  Each successful `Add`/`AddRandom` assigns id `maxID + 1` and
increments `maxID`; `maxID` never decreases under any mutation, so assigned
ids strictly increase and never repeat (a fresh id exceeds every id already
bounded by `maxID`, a bound every mutation preserves); and a Ring loaded by
`Read` has `maxID` at least every id present in storage. -/
theorem maxID_monotonic :
    (∀ (r : Ring) (data : List Nat),
      (addBytes r data).2 = r.maxID + 1 ∧
      (addBytes r data).1.maxID = r.maxID + 1 ∧
      (addBytes r data).1.keys = r.keys ++ [⟨r.maxID + 1, data⟩]) ∧
    (∀ (r : Ring) (op : RingOp) (r2 : Ring), applyOp r op = some r2 →
      r.maxID ≤ r2.maxID) ∧
    (∀ (r : Ring) (data : List Nat) (res : Ring × Nat), RingAdd r data = some res →
      res.2 = r.maxID + 1 ∧ res.1.maxID = r.maxID + 1 ∧
      ((∀ ki ∈ r.keys, ki.ID ≤ r.maxID) → res.2 ∉ r.keys.map KeyInfo.ID)) ∧
    (∀ (r : Ring) (op : RingOp) (r2 : Ring), applyOp r op = some r2 →
      (∀ ki ∈ r.keys, ki.ID ≤ r.maxID) → (∀ ki ∈ r2.keys, ki.ID ≤ r2.maxID)) ∧
    (∀ (data : List Nat) (akf : List Nat → List Nat) (r2 : Ring),
      ReadRing data akf = some r2 → ∀ ki ∈ r2.keys, ki.ID ≤ r2.maxID) := by
  have haddb : ∀ (r : Ring) (data : List Nat),
      (addBytes r data).2 = r.maxID + 1 ∧
      (addBytes r data).1.maxID = r.maxID + 1 ∧
      (addBytes r data).1.keys = r.keys ++ [⟨r.maxID + 1, data⟩] :=
    fun r data => ⟨rfl, rfl, rfl⟩
  have hadd : ∀ (r : Ring) (data : List Nat) (res : Ring × Nat),
      RingAdd r data = some res →
      res.2 = r.maxID + 1 ∧ res.1.maxID = r.maxID + 1 ∧
      ((∀ ki ∈ r.keys, ki.ID ≤ r.maxID) → res.2 ∉ r.keys.map KeyInfo.ID) := by
    intro r data res hres
    rw [RingAdd] at hres
    by_cases hd : data.length = 0
    · rw [if_pos hd] at hres; simp at hres
    · rw [if_neg hd] at hres
      cases hres
      refine ⟨rfl, rfl, ?_⟩
      intro hbound hmem
      rw [List.mem_map] at hmem
      obtain ⟨ki, hki, hid⟩ := hmem
      have := hbound ki hki
      simp only [addBytes] at hid
      omega
  have hmono : ∀ (r : Ring) (op : RingOp) (r2 : Ring), applyOp r op = some r2 →
      r.maxID ≤ r2.maxID := by
    intro r op r2 hop
    match op with
    | .add data | .addRandom data =>
      simp only [applyOp] at hop
      match hres : RingAdd r data with
      | none => rw [hres] at hop; simp at hop
      | some res =>
        rw [hres] at hop
        simp only [Option.map_some', Option.some.injEq] at hop
        have := (hadd r data res hres).2.1
        rw [← hop]
        omega
    | .activate id =>
      simp only [applyOp, RingActivate] at hop
      by_cases hneg : FindKey r.keys id < 0
      · rw [if_pos hneg] at hop; simp at hop
      · rw [if_neg hneg] at hop
        cases hop
        exact le_refl _
  refine ⟨haddb, hmono, hadd, ?_, ?_⟩
  · intro r op r2 hop hbound
    match op with
    | .add data | .addRandom data =>
      simp only [applyOp] at hop
      match hres : RingAdd r data with
      | none => rw [hres] at hop; simp at hop
      | some res =>
        rw [hres] at hop
        simp only [Option.map_some', Option.some.injEq] at hop
        rw [RingAdd] at hres
        by_cases hd : data.length = 0
        · rw [if_pos hd] at hres; simp at hres
        · rw [if_neg hd] at hres
          cases hres
          cases hop
          intro ki hki
          simp only [addBytes, List.mem_append, List.mem_singleton] at hki ⊢
          rcases hki with hmem | rfl
          · have := hbound ki hmem
            omega
          · simp
    | .activate id =>
      simp only [applyOp, RingActivate] at hop
      by_cases hneg : FindKey r.keys id < 0
      · rw [if_pos hneg] at hop; simp at hop
      · rw [if_neg hneg] at hop
        cases hop
        exact hbound
  · intro data akf r2 hread ki hki
    rw [readRing_maxID hread]
    exact foldl_max_mem_le hki 0

/-- Witness for `maxID_monotonic` at concrete inputs. -/
theorem maxID_monotonic_witness :
    wR0.maxID ≤ wR.maxID ∧ (∀ ki ∈ wR.keys, ki.ID ≤ wR.maxID) := by
  have h1 : applyOp wR0 (.add [10]) = some ((runOps wR0 [.add [10]]).getD default) := by decide
  have h4 : ReadRing wOut (fun _ => wK) = some wR := by decide
  constructor
  · have hm := maxID_monotonic.2.1 wR0 (.add [10]) ((runOps wR0 [.add [10]]).getD default) h1
    have hle : ((runOps wR0 [.add [10]]).getD default).maxID ≤ wR.maxID := by decide
    omega
  · exact maxID_monotonic.2.2.2.2 wOut (fun _ => wK) wR h4

/-! ## Rekeying -/

/-- Rekeying with a fresh nonce preserves the key set, the plaintext DEK and
the invariant, now under the new access key, and installs the supplied salt. -/
theorem rekey_inv {oldKey newKey : List Nat} {saltOpt : Option (List Nat)}
    {r r1 : Ring} {nonce : List Nat}
    (hinv : RingInv oldKey r)
    (hrk : RingRekey r newKey saltOpt nonce = some r1)
    (hn : nonce.length = NonceSize) :
    RingInv newKey r1 ∧ r1.keys = r.keys ∧ r1.dkPlaintext = r.dkPlaintext ∧
    r1.accessKeySalt = saltOpt.getD r.accessKeySalt := by
  obtain ⟨hv, hak, hdkp, _, hids, hmax, hact⟩ := hinv
  rw [RingRekey] at hrk
  by_cases hk : newKey.length ≠ AccessKeyLen
  · rw [if_pos hk] at hrk; simp at hrk
  · rw [if_neg hk] at hrk
    push_neg at hk
    rw [EncryptWithKey, if_neg (by simp [hk, AccessKeyLen])] at hrk
    simp only [Option.some.injEq] at hrk
    cases hrk
    exact ⟨⟨hv, hk, hdkp, ⟨nonce, hn, rfl⟩, hids, hmax, hact⟩, rfl, rfl, rfl⟩

/-- Reading a written container with an access key different from the one the
DEK is wrapped under fails, yielding no ring and no key material. -/
theorem readWrongKey {accessKey k2 : List Nat} {r : Ring} {nonce out : List Nat}
    (akf2 : List Nat → List Nat)
    (hinv : RingInv accessKey r) (hW : WriteTo r nonce = some out)
    (hk2 : k2.length = KeyLen) (hne : k2 ≠ accessKey)
    (hakf2 : akf2 r.accessKeySalt = k2) :
    ReadRing out akf2 = none := by
  obtain ⟨hv, hak, hdkp, ⟨n0, hn0, hdke⟩, hids, hmax, hact⟩ := hinv
  obtain ⟨inner, sealed, hdk2, hsealed_eq, hinner, hentb, hsaltb, hdkeb, hsealb, hout⟩ :=
    writeTo_shape hW
  have houter : ParsePackets (packetsBytes
      [⟨AccessKeySaltType, r.accessKeySalt⟩, ⟨DataKeyType, r.dkEncrypted⟩,
       ⟨BundleType, sealed⟩]) 4
      = ([⟨AccessKeySaltType, r.accessKeySalt⟩, ⟨DataKeyType, r.dkEncrypted⟩,
          ⟨BundleType, sealed⟩], none) := by
    apply parseLoop_packetsBytes ?_ 4 _ _ (by omega)
    intro p hp
    simp only [List.mem_cons, List.not_mem_nil, or_false] at hp
    rcases hp with rfl | rfl | rfl
    · exact hsaltb
    · exact hdkeb
    · exact hsealb
  have hpk : ParseKeyring out = (⟨1, (0, 0),
      [⟨AccessKeySaltType, r.accessKeySalt⟩, ⟨DataKeyType, r.dkEncrypted⟩,
       ⟨BundleType, sealed⟩]⟩, none) := by
    rw [hout, hv, WriteHeader]
    rw [ParseKeyring]
    rw [if_neg (by simp)]
    rw [if_neg (by simp [MagicByte])]
    simp only [List.cons_append, List.getD_cons_zero, List.getD_cons_succ,
      List.drop_succ_cons, List.drop_zero, List.nil_append]
    rw [houter]
    rfl
  have hd1n : DecryptWithKey (akf2 r.accessKeySalt) r.dkEncrypted = none := by
    rw [hakf2]
    exact @decrypt_encrypt_wrong_key accessKey k2 r.dkPlaintext n0
      (NonceSize, r.dkEncrypted) hak hk2 hne hn0
      (by rw [EncryptWithKey, if_neg (by omega), hdke])
  rw [ReadRing]
  rw [hpk]
  dsimp only
  rw [if_neg (by simp), if_neg (by simp), if_neg (by simp)]
  have hf3 : findPacket
      [⟨AccessKeySaltType, r.accessKeySalt⟩, ⟨DataKeyType, r.dkEncrypted⟩,
       ⟨BundleType, sealed⟩] AccessKeySaltType = some ⟨AccessKeySaltType, r.accessKeySalt⟩ := rfl
  have hf2 : findPacket
      [⟨AccessKeySaltType, r.accessKeySalt⟩, ⟨DataKeyType, r.dkEncrypted⟩,
       ⟨BundleType, sealed⟩] DataKeyType = some ⟨DataKeyType, r.dkEncrypted⟩ := rfl
  have hf6 : findPacket
      [⟨AccessKeySaltType, r.accessKeySalt⟩, ⟨DataKeyType, r.dkEncrypted⟩,
       ⟨BundleType, sealed⟩] BundleType = some ⟨BundleType, sealed⟩ := rfl
  rw [hf3, hf2, hf6]
  simp only [Option.bind_eq_bind, Option.some_bind]
  rw [hd1n]
  simp

/-- C2 (amended).  After a successful `Rekey(newKey, newSalt)` and `WriteTo`,
reading the written container with `newKey` (via an access-key function
returning it on the persisted salt) yields exactly the key contents the Ring
held before the rekey; and provided `newKey` differs from the previous
AccessKey, reading with the previous AccessKey fails, returning no ring and
no key material.  (The distinctness proviso is forced: rekeying to the very
same key leaves the old key valid — see the counterexample.) -/
theorem rekey_contract {oldKey newKey newSalt : List Nat} {r r1 : Ring}
    {n1 nonce out : List Nat} (akf : List Nat → List Nat)
    (hinv : RingInv oldKey r)
    (hrk : RingRekey r newKey (some newSalt) n1 = some r1)
    (hn1 : n1.length = NonceSize)
    (hW : WriteTo r1 nonce = some out) (hn : nonce.length = NonceSize)
    (hakf : akf r1.accessKeySalt = newKey) :
    (ReadRing out akf = some r1 ∧ r1.keys = r.keys) ∧
    (newKey ≠ oldKey → ∀ akf2 : List Nat → List Nat,
      akf2 r1.accessKeySalt = oldKey → ReadRing out akf2 = none) := by
  obtain ⟨hinv1, hkeys, hdkp1, hsalt1⟩ := rekey_inv hinv hrk hn1
  refine ⟨⟨writeRead akf hinv1 hW hn hakf, hkeys⟩, ?_⟩
  intro hne akf2 hakf2
  have hoklen : oldKey.length = KeyLen := hinv.2.1
  exact readWrongKey akf2 hinv1 hW hoklen (fun h => hne h.symm) hakf2

set_option maxRecDepth 100000 in
/-- Witness for `rekey_contract` on concrete inputs. -/
theorem rekey_contract_witness :
    ReadRing c2Out (fun _ => wK2) = some c2R1 ∧ c2R1.keys = wR0.keys ∧
    ReadRing c2Out (fun _ => wK) = none := by
  have hinv : RingInv wK wR0 := by
    have h1 : NewRing wCfg wDek wN0 = some wR0 := by decide
    exact newRing_inv h1 (by decide) (by decide)
  have hrk : RingRekey wR0 wK2 (some [9]) wN1 = some c2R1 := by decide
  have hW : WriteTo c2R1 wN2 = some c2Out := by decide
  have hres := rekey_contract (fun _ => wK2) hinv hrk (by decide) hW (by decide) (by decide)
  exact ⟨hres.1.1, hres.1.2, hres.2 (by decide) (fun _ => wK) (by decide)⟩

set_option maxRecDepth 100000 in
/-- C2 as frozen is false at rekeying to the same key: after
`Rekey(oldKey, newSalt)` succeeds and the ring is rewritten, reading the new
container with the previous AccessKey (equal to the new one) succeeds instead
of failing with an authentication error. -/
theorem rekey_same_key_counterexample :
    ((RingRekey wR0 wK (some [9]) wN1).bind fun r1 =>
      (WriteTo r1 wN2).bind fun out => ReadRing out (fun _ => wK)).isSome = true := by
  decide

namespace Heap

theorem store_extends {σ : Store} {r : HRing} {op : HOp} {σ2 : Store} {r2 : HRing}
    (h : applyHOp σ r op = some (σ2, r2)) :
    List.length σ ≤ List.length σ2 ∧
    ∀ p, p < List.length σ → List.getD σ2 p [] = List.getD σ p [] := by
  match op with
  | .add data | .addRandom data =>
    simp only [applyHOp] at h
    split at h
    · simp at h
    · cases h
      refine ⟨by simp, ?_⟩
      intro p hp
      exact List.getD_append σ [data] [] p hp
  | .activate id =>
    simp only [applyHOp] at h
    split at h
    · simp at h
    · cases h
      exact ⟨le_refl _, fun p _ => rfl⟩
  | .rekey newKey newSalt nonce =>
    simp only [applyHOp] at h
    split at h
    · simp at h
    · cases h
      exact ⟨le_refl _, fun p _ => rfl⟩

theorem cloneKeys_fst (ks : List HKeyInfo) :
    ∀ σ : Store, List.length σ ≤ List.length (cloneKeys σ ks).1 ∧
      ∀ p, p < List.length σ →
        List.getD (cloneKeys σ ks).1 p [] = List.getD σ p [] := by
  induction ks with
  | nil => intro σ; exact ⟨le_refl _, fun p _ => rfl⟩
  | cons ki ks ih =>
    intro σ
    obtain ⟨hle, hpre⟩ := ih (σ ++ [List.getD σ ki.Key []])
    simp only [cloneKeys, cloneInfo, List.append_eq]
    have hlen : List.length (σ ++ [List.getD σ ki.Key []]) = List.length σ + 1 := by
      simp
    refine ⟨by omega, ?_⟩
    intro p hp
    rw [hpre p (by omega)]
    exact List.getD_append σ _ [] p hp

theorem cloneKeys_fresh (ks : List HKeyInfo) :
    ∀ (σ : Store) (ref : HKeyInfo), ref ∈ (cloneKeys σ ks).2 →
      List.length σ ≤ ref.Key ∧ ref.Key < List.length (cloneKeys σ ks).1 := by
  induction ks with
  | nil => intro σ ref h; simp [cloneKeys] at h
  | cons ki ks ih =>
    intro σ ref h
    simp only [cloneKeys, cloneInfo, List.append_eq] at h ⊢
    simp only [List.mem_cons] at h
    have hfst := (cloneKeys_fst ks (σ ++ [List.getD σ ki.Key []])).1
    have hlen : List.length (σ ++ [List.getD σ ki.Key []]) = List.length σ + 1 := by
      simp
    rcases h with rfl | hmem
    · refine ⟨le_refl _, ?_⟩
      dsimp only
      omega
    · have := ih (σ ++ [List.getD σ ki.Key []]) ref hmem
      exact ⟨by omega, this.2⟩

theorem cloneKeys_snd_length (ks : List HKeyInfo) :
    ∀ σ : Store, ((cloneKeys σ ks).2).length = ks.length := by
  induction ks with
  | nil => intro σ; rfl
  | cons ki ks ih =>
    intro σ
    rw [cloneKeys]
    simp only [List.length_cons]
    rw [ih]

theorem findKeyH_nonneg {keys : List HKeyInfo} {id : Nat}
    (h : 0 ≤ FindKeyH keys id) :
    (FindKeyH keys id).toNat < keys.length ∧
    (keys.getD (FindKeyH keys id).toNat default).ID = id := by
  rw [FindKeyH] at h ⊢
  by_cases hc : bsLoopH keys id (keys.length + 1) 0 keys.length < keys.length ∧
      (keys.getD (bsLoopH keys id (keys.length + 1) 0 keys.length) default).ID = id
  · rw [if_pos hc] at h ⊢
    simpa using hc
  · rw [if_neg hc] at h
    omega

/-- C7.  A `View` taken from a Ring deep-clones every key buffer: none of its
buffers aliases the Ring's storage, and any subsequent Ring mutation
(`Add`/`AddRandom`/`Activate`/`Rekey`) leaves every View observable —
`Len`, `Active`, `Has`, and the bytes produced by `Get`/`Append`/
`AppendActive` — exactly as it was when the view was taken. -/
theorem view_independent (σ : Store) (r : HRing) (hwf : WFH σ r) :
    (∀ ref ∈ (ringView σ r).2.keys, ∀ ref2 ∈ r.keys, ref.Key ≠ ref2.Key) ∧
    (∀ (op : HOp) (σ2 : Store) (r2 : HRing),
      applyHOp (ringView σ r).1 r op = some (σ2, r2) →
      vLen (ringView σ r).2 = vLen (ringView σ r).2 ∧
      vActive (ringView σ r).2 = vActive (ringView σ r).2 ∧
      (∀ id, vHas (ringView σ r).2 id = vHas (ringView σ r).2 id) ∧
      (∀ id buf, vAppend σ2 (ringView σ r).2 id buf
        = vAppend (ringView σ r).1 (ringView σ r).2 id buf) ∧
      (∀ id, vGet σ2 (ringView σ r).2 id = vGet (ringView σ r).1 (ringView σ r).2 id) ∧
      (∀ buf, vAppendActive σ2 (ringView σ r).2 buf
        = vAppendActive (ringView σ r).1 (ringView σ r).2 buf)) := by
  obtain ⟨hptr, hact⟩ := hwf
  have hfresh := cloneKeys_fresh r.keys σ
  have hfst := cloneKeys_fst r.keys σ
  constructor
  · intro ref href ref2 href2
    have h1 := (hfresh ref href).1
    have h2 := hptr ref2 href2
    omega
  · intro op σ2 r2 hop
    obtain ⟨hle2, hpre2⟩ := store_extends hop
    have hcell : ∀ ref ∈ (ringView σ r).2.keys,
        List.getD σ2 ref.Key [] = List.getD (ringView σ r).1 ref.Key [] := by
      intro ref href
      exact hpre2 ref.Key (hfresh ref href).2
    refine ⟨rfl, rfl, fun id => rfl, ?_, ?_, ?_⟩
    · intro id buf
      rw [vAppend, vAppend]
      by_cases hneg : FindKeyH (ringView σ r).2.keys id < 0
      · rw [if_pos hneg, if_pos hneg]
      · rw [if_neg hneg, if_neg hneg]
        have hpos := @findKeyH_nonneg (ringView σ r).2.keys id (by omega)
        have hmem : (ringView σ r).2.keys.getD
            (FindKeyH (ringView σ r).2.keys id).toNat default ∈ (ringView σ r).2.keys := by
          rw [List.getD_eq_getElem?_getD, List.getElem?_eq_getElem hpos.1]
          exact List.getElem_mem _
        rw [hcell _ hmem]
    · intro id
      rw [vGet, vGet]
      by_cases hneg : FindKeyH (ringView σ r).2.keys id < 0
      · rw [vAppend, vAppend, if_pos hneg, if_pos hneg]
      · rw [vAppend, vAppend, if_neg hneg, if_neg hneg]
        have hpos := @findKeyH_nonneg (ringView σ r).2.keys id (by omega)
        have hmem : (ringView σ r).2.keys.getD
            (FindKeyH (ringView σ r).2.keys id).toNat default ∈ (ringView σ r).2.keys := by
          rw [List.getD_eq_getElem?_getD, List.getElem?_eq_getElem hpos.1]
          exact List.getElem_mem _
        rw [hcell _ hmem]
    · intro buf
      rw [vAppendActive, vAppendActive]
      have hvact : (ringView σ r).2.activeKey < (ringView σ r).2.keys.length := by
        rw [ringView]
        simp only
        rw [cloneKeys_snd_length]
        exact hact
      have hmem : (ringView σ r).2.keys.getD (ringView σ r).2.activeKey default
          ∈ (ringView σ r).2.keys := by
        rw [List.getD_eq_getElem?_getD, List.getElem?_eq_getElem hvact]
        exact List.getElem_mem _
      rw [hcell _ hmem]

/-- Witness for `view_independent` on a concrete store, ring and mutation. -/
theorem view_independent_witness :
    (∀ ref ∈ (ringView [[1, 2]] ⟨[], [], [], [⟨1, 0⟩], 0, 1⟩).2.keys,
      ∀ ref2 ∈ ([⟨1, 0⟩] : List HKeyInfo), ref.Key ≠ ref2.Key) ∧
    (∀ id buf, vAppend ((ringView [[1, 2]] ⟨[], [], [], [⟨1, 0⟩], 0, 1⟩).1 ++ [[7]])
        (ringView [[1, 2]] ⟨[], [], [], [⟨1, 0⟩], 0, 1⟩).2 id buf
      = vAppend (ringView [[1, 2]] ⟨[], [], [], [⟨1, 0⟩], 0, 1⟩).1
        (ringView [[1, 2]] ⟨[], [], [], [⟨1, 0⟩], 0, 1⟩).2 id buf) := by
  have hwf : WFH [[1, 2]] ⟨[], [], [], [⟨1, 0⟩], 0, 1⟩ := by
    constructor
    · intro ki hki
      simp only [List.mem_singleton] at hki
      rw [hki]
      decide
    · decide
  have hop : applyHOp (ringView [[1, 2]] ⟨[], [], [], [⟨1, 0⟩], 0, 1⟩).1
      (⟨[], [], [], [⟨1, 0⟩], 0, 1⟩ : HRing) (.add [7])
      = some ((ringView [[1, 2]] ⟨[], [], [], [⟨1, 0⟩], 0, 1⟩).1 ++ [[7]],
        ⟨[], [], [], [⟨1, 0⟩, ⟨2, 2⟩], 0, 2⟩) := by decide
  have hv := view_independent [[1, 2]] ⟨[], [], [], [⟨1, 0⟩], 0, 1⟩ hwf
  exact ⟨hv.1, (hv.2 (.add [7]) _ _ hop).2.2.2.1⟩

end Heap

end KeyringProof
